import Mathlib

/-!
Verification of the `alloc_testing` free-list allocator.

This file gives a shallow embedding of the allocator in `src/alloc.rs`
(block-descriptor arithmetic, split, coalescing deallocate, grow-and-retry
allocate over a bounded fake heap) and of the doubly linked deque in
`src/deque_list.rs`, and proves or refutes the specification claims about
them.

Addresses and sizes are modelled as `Nat`.  On the 64-bit target,
`size_of::<Node<MetaData>>() = 40` and `align_of::<Node<MetaData>>() = 8`
(the source states this in the comments next to the constants:
`NODE_SIZE = NODE_ALIGN*5`, `NODE_ALIGN = 8`).

The intrusive list used by `alloc.rs` is the external `raw_list` crate
(`use raw_list::{Link, List, Node}`), whose sources are not part of this
repository's `src/`.  Its operations (cursor, insert_before, remove,
push_front/push_back, pop_back) are therefore modelled from the spec,
section 4.1, which describes a standard correct doubly linked list with
cursors; the allocator model below consequently works directly on a
`List MetaData` of block descriptors, mirroring the cursor choreography of
`MetaAllocInner::alloc` / `dealloc` step by step.

Rust `usize` subtraction panics on underflow (debug profile, the profile
the crate's own tests run under); the one place the allocator can actually
underflow (`block_size - lhs_size` in `node_split`) is modelled by an
`Option`: `none` is a panic.  All other subtractions in the source are
provably in range and are modelled with truncated `Nat` subtraction.
-/

namespace AllocTesting

/-- `size_of::<Node<MetaData>>()` on the 64-bit target (two 8-byte links
plus a 24-byte `MetaData`); the source's comment: `NODE_ALIGN*5`. -/
def NODE_SIZE : Nat := 40

/-- `align_of::<Node<MetaData>>()`; the source's comment: `NODE_ALIGN = 8`. -/
def NODE_ALIGN : Nat := 8

/-- `PAGE_SIZE` from `alloc.rs`. -/
def PAGE_SIZE : Nat := 4096

/-- `FAKE_HEAP_SIZE = PAGE_SIZE * 1024 * 1024` from `alloc.rs`. -/
def FAKE_HEAP_SIZE : Nat := PAGE_SIZE * 1024 * 1024

/-- `core::alloc::Layout`: a size / alignment pair. -/
structure LayoutM where
  size : Nat
  align : Nat
deriving DecidableEq, Repr

/-- `align` is a power of two (the `Layout` validity condition). -/
def IsPow2 (n : Nat) : Prop := ∃ k, n = 2 ^ k

/-- Rust `ptr.align_offset(a)` for byte pointers: the number of bytes to
add to address `p` to reach a multiple of `a`. -/
def alignOffset (p a : Nat) : Nat := (a - p % a) % a

/-- Rust `n.next_multiple_of(m)`: the smallest multiple of `m` that is
`≥ n` (for `m > 0`). -/
def nextMul (n m : Nat) : Nat := ((n + m - 1) / m) * m

/-- `MetaData` from `alloc.rs`: the original base pointer of the extent
(pre-alignment) plus the requested layout, unmodified. -/
structure MetaData where
  base : Nat
  layout : LayoutM
deriving DecidableEq, Repr

namespace MetaData

/-- `MetaData::extra_size`: bytes to align `base` to
`layout.align.max(NODE_ALIGN)`, plus `NODE_SIZE.next_multiple_of(layout.align)`. -/
def extra_size (m : MetaData) : Nat :=
  nextMul NODE_SIZE m.layout.align + alignOffset m.base (max m.layout.align NODE_ALIGN)

/-- `MetaData::data_location`: base + padding + metadata size. -/
def data_location (m : MetaData) : Nat :=
  m.base + m.extra_size

/-- `MetaData::meta_location`: data_location - node size. -/
def meta_location (m : MetaData) : Nat :=
  m.data_location - NODE_SIZE

/-- `MetaData::total_size = layout.size + extra_size`. -/
def total_size (m : MetaData) : Nat :=
  m.layout.size + m.extra_size

/-- `MetaData::default_meta_offset`: offset of the meta block of a blank
(`Layout::from_size_align(0, NODE_ALIGN)`) descriptor at `base`. -/
def default_meta_offset (base : Nat) : Nat :=
  (MetaData.mk base ⟨0, NODE_ALIGN⟩).meta_location - base

/-- `MetaData::usable_size`. -/
def usable_size (m : MetaData) : Nat :=
  m.layout.size + ((m.meta_location - m.base) - default_meta_offset m.base)

/-- `MetaData::check_compatible`. -/
def check_compatible (m : MetaData) (lay : LayoutM) : Bool :=
  if m.layout.align < lay.align then
    let new_meta : MetaData := ⟨m.base, lay⟩
    if new_meta.extra_size ≤ m.total_size then
      decide (lay.size ≤ m.total_size - new_meta.extra_size)
    else
      false
  else
    decide (lay.size ≤ m.usable_size)

/-- `MetaData::new_blank`: a blank unallocated descriptor consuming a whole
fresh extent of `size` bytes at `base`, at the node's natural alignment. -/
def new_blank (base size : Nat) : MetaData :=
  let padding := default_meta_offset base
  let total_removed := padding + NODE_SIZE
  ⟨base, ⟨size - total_removed, NODE_ALIGN⟩⟩

/-- One-past-the-end address of the extent: `base + total_size`. -/
def endAddr (m : MetaData) : Nat := m.base + m.total_size

end MetaData

/-- `node_split` from `alloc.rs`.  Returns `none` when the `usize`
subtraction `block_size - lhs_size` would underflow (a Rust panic). -/
def node_split (m : MetaData) (lay : LayoutM) :
    Option (MetaData × Option MetaData) :=
  let block_size := m.total_size
  let lhs : MetaData := ⟨m.base, lay⟩
  let lhs_size := lhs.total_size
  if lhs_size ≤ block_size then
    let remaining_size := block_size - lhs_size
    let rhs_ptr := m.base + lhs_size
    let required_size := MetaData.default_meta_offset rhs_ptr + NODE_SIZE
    if required_size < remaining_size then
      some (lhs, some ⟨rhs_ptr, ⟨remaining_size - required_size, NODE_ALIGN⟩⟩)
    else
      some (⟨m.base, ⟨lay.size + remaining_size, lay.align⟩⟩, none)
  else
    none

/-- The metadata update performed by `merge_right` when the node's extent is
address-adjacent to its right neighbour (`base + total_size == right.base`):
the left descriptor's layout size grows by the right descriptor's total
size.  Returns `none` when the two are not adjacent (`merge_right` returns
`false` and changes nothing). -/
def mergeAdj (l r : MetaData) : Option MetaData :=
  if l.base + l.total_size = r.base then
    some ⟨l.base, ⟨l.layout.size + r.total_size, l.layout.align⟩⟩
  else
    none

/-- The free-list update of `MetaAllocInner::dealloc`, with the cursor
choreography of the source replayed over a `List MetaData` (list operations
modelled from the spec, section 4.1): scan for the first member with a
strictly greater base; `left` carries the member just before the scan
position (the cursor's left neighbour).  On insertion the freed extent is
first merged with the right neighbour (`merge_right` at the inserted node,
followed by `remove` of the right node), then the left neighbour is merged
with the result; when no greater member exists the freed extent is pushed
at the back and merged with the previous last member (`merge_right` then
`pop_back`). -/
def deallocScan (n : MetaData) : Option MetaData → List MetaData → List MetaData
  | none, [] => [n]
  | some l, [] =>
    match mergeAdj l n with
    | some ln => [ln]
    | none => [l, n]
  | left, x :: xs =>
    if n.base < x.base then
      let (n1, rest1) :=
        match mergeAdj n x with
        | some nx => (nx, xs)
        | none => (n, x :: xs)
      match left with
      | some l =>
        match mergeAdj l n1 with
        | some ln => ln :: rest1
        | none => l :: n1 :: rest1
      | none => n1 :: rest1
    else
      match left with
      | some l => l :: deallocScan n (some x) xs
      | none => deallocScan n (some x) xs

/-- `MetaAllocInner::dealloc`: the freed extent's descriptor (recovered in
the source from the payload pointer by subtracting `NODE_SIZE`) is inserted
into the free list in base-address order and coalesced with its
address-adjacent neighbours.  An empty list just receives the node
(`push_front`). -/
def dealloc (n : MetaData) (free : List MetaData) : List MetaData :=
  deallocScan n none free

/-- Allocator state: the fake heap's `current_top` plus the free list.
`hb` (the fake heap's base address) is passed separately. -/
structure St where
  top : Nat
  free : List MetaData
deriving DecidableEq, Repr

/-- `get_page`: hands out `hb + current_top` and bumps the top by one page,
or returns null (`none`) once `current_top` has reached `FAKE_HEAP_SIZE`. -/
def get_page (hb : Nat) (s : St) : Option Nat × St :=
  if FAKE_HEAP_SIZE ≤ s.top then
    (none, s)
  else
    (some (hb + s.top), ⟨s.top + PAGE_SIZE, s.free⟩)

/-- `MetaAllocInner::try_add_page`: formats a fresh page as a blank
descriptor and feeds it through the deallocate path. -/
def try_add_page (hb : Nat) (s : St) : Bool × St :=
  match get_page hb s with
  | (none, s') => (false, s')
  | (some pg, s') =>
    (true, ⟨s'.top, dealloc (MetaData.new_blank pg PAGE_SIZE) s'.free⟩)

/-- The front-to-back cursor scan of `MetaAllocInner::alloc`: the first
member satisfying `check_compatible`, with the members before and after it. -/
def findCompat (lay : LayoutM) : List MetaData →
    Option (List MetaData × MetaData × List MetaData)
  | [] => none
  | x :: xs =>
    if x.check_compatible lay then
      some ([], x, xs)
    else
      match findCompat lay xs with
      | some (pre, m, post) => some (x :: pre, m, post)
      | none => none

/-- `MetaAllocInner::alloc`, with the grow-and-retry recursion bounded by a
fuel argument (each retry consumes one page of the bounded fake heap, so
the recursion depth is at most the number of pages; `alloc` below passes
enough fuel for the whole heap and `allocFuel_stable` shows the bound is
never hit).  The outer `Option` is a panic (`node_split` underflow); the
inner one is the null return. -/
def allocFuel (hb : Nat) (lay : LayoutM) : Nat → St → Option (Option (Nat × MetaData) × St)
  | 0, _ => none
  | fuel + 1, s =>
    let (grown, s1) := if s.free.isEmpty then try_add_page hb s else (true, s)
    if grown then
      match findCompat lay s1.free with
      | some (pre, m, post) =>
        match node_split m lay with
        | none => none
        | some (head, rem) =>
          let f1 := pre ++ post
          let f2 := match rem with
            | some r => dealloc r f1
            | none => f1
          some (some (head.data_location, head), ⟨s1.top, f2⟩)
      | none =>
        match try_add_page hb s1 with
        | (false, s2) => some (none, s2)
        | (true, s2) => allocFuel hb lay fuel s2
    else
      some (none, s1)

/-- Number of pages in the fake heap. -/
def PAGE_COUNT : Nat := 1024 * 1024

/-- `MetaAllocInner::alloc`.  On success the returned pair is the payload
address together with the head descriptor handed out (in the real program
the descriptor lives in memory at `address - NODE_SIZE`, which is what
`dealloc` later recovers).  `none` is a panic, `some (none, s)` is the null
return. -/
def alloc (hb : Nat) (lay : LayoutM) (s : St) : Option (Option (Nat × MetaData) × St) :=
  allocFuel hb lay (PAGE_COUNT + 1) s

/-- Two extents occupy disjoint address ranges. -/
def Disj (a b : MetaData) : Prop :=
  a.endAddr ≤ b.base ∨ b.endAddr ≤ a.base

/-- The first extent ends strictly before the second begins: the relation
between consecutive free-list members (sorted, non-overlapping,
non-adjacent). -/
def gapped (a b : MetaData) : Prop := a.endAddr < b.base

/-- Address `k` lies inside the extent's footprint. -/
def inExt (m : MetaData) (k : Nat) : Prop := m.base ≤ k ∧ k < m.endAddr

/-- The cursor's left neighbour (if any) as a list, for stating facts about
the scan of `deallocScan`. -/
def leftList : Option MetaData → List MetaData
  | none => []
  | some l => [l]

/-- The free list after `MetaAllocInner::alloc` removes the chosen extent
(splitting off `pre`/`post`) and reinserts the split remainder, if any. -/
def remFree (pre post : List MetaData) : Option MetaData → List MetaData
  | some r => dealloc r (pre ++ post)
  | none => pre ++ post

/-- The allocator's structural invariant, relative to the fake-heap base
`hb` and the multiset `allocd` of currently handed-out block descriptors:
consecutive free extents are separated by a strict gap (which packs
strictly-increasing base order, pairwise non-overlap and pairwise
non-adjacency of the free list), every tracked extent has a non-empty
footprint, handed-out blocks are pairwise disjoint and disjoint from every
free extent, and everything lives inside the arena handed out so far. -/
def Inv (hb : Nat) (s : St) (allocd : List MetaData) : Prop :=
  s.free.Chain' gapped ∧
  (∀ m ∈ s.free, 0 < m.total_size) ∧
  (∀ m ∈ allocd, 0 < m.total_size) ∧
  (∀ a ∈ allocd, ∀ f ∈ s.free, Disj a f) ∧
  allocd.Pairwise Disj ∧
  (∀ m ∈ s.free, hb ≤ m.base ∧ m.endAddr ≤ hb + s.top) ∧
  (∀ m ∈ allocd, hb ≤ m.base ∧ m.endAddr ≤ hb + s.top)

/-- Allocator states reachable from the initial state (empty free list,
untouched fake heap) by completed `alloc` / `dealloc` calls: `allocate` is
called with a power-of-two alignment (the `Layout` precondition) and
`deallocate` only with a block handed out by a prior `allocate` and not
freed since (the spec's deallocate precondition). -/
inductive Reach (hb : Nat) : St → List MetaData → Prop
  | init : Reach hb ⟨0, []⟩ []
  | alloc_ok {s : St} {allocd : List MetaData} {lay : LayoutM} {p : Nat}
      {H : MetaData} {s' : St} :
      Reach hb s allocd → IsPow2 lay.align →
      alloc hb lay s = some (some (p, H), s') →
      Reach hb s' (H :: allocd)
  | alloc_fail {s : St} {allocd : List MetaData} {lay : LayoutM} {s' : St} :
      Reach hb s allocd → IsPow2 lay.align →
      alloc hb lay s = some (none, s') →
      Reach hb s' allocd
  | dealloc_step {s : St} {allocd : List MetaData} {H : MetaData} :
      Reach hb s allocd → H ∈ allocd →
      Reach hb ⟨s.top, dealloc H s.free⟩ (allocd.erase H)

/-- Modelled from the spec: `check_compatible(requested)` — "an extent
satisfies a request when, after accounting for the larger of the extent's
current alignment and the requested alignment, the extent's usable byte
count is ≥ the requested size", with the bookkeeping overhead recomputed at
that joint alignment.  This is the spec's definition, to be compared with
the source's `MetaData::check_compatible` above. -/
def specCheckCompatible (m : MetaData) (lay : LayoutM) : Bool :=
  let joint := max m.layout.align lay.align
  let overhead := (MetaData.mk m.base ⟨lay.size, joint⟩).extra_size
  decide (overhead + lay.size ≤ m.total_size)

end AllocTesting

namespace DequeList

/-!
Model of `src/deque_list.rs`.  A `Node<T>` lives at some address; the heap
is a map from addresses to node records (`front`/`back` links plus the
element).  The operations below transcribe the source functions one for
one, including every pointer write, in source order.
-/

/-- `Node<T>` (the element payload is irrelevant to the link structure and
is kept as a `Nat` tag). -/
structure DNode where
  front : Option Nat
  back : Option Nat
  elem : Nat
deriving DecidableEq, Repr

/-- The node heap: contents of memory at each node address. -/
def Heap : Type := Nat → DNode

/-- Write the record at one address. -/
def hupd (h : Heap) (a : Nat) (v : DNode) : Heap :=
  fun x => if x = a then v else h x

/-- `LinkedDeque<T>` together with the heap its nodes live in. -/
structure DState where
  heap : Heap
  front : Option Nat
  back : Option Nat
  len : Nat

/-- `LinkedDeque::push_front`. -/
def push_front (nw : Nat) (s : DState) : DState :=
  match s.front with
  | some old =>
    let h1 := hupd s.heap old { s.heap old with front := some nw }
    let h2 := hupd h1 nw { h1 nw with back := some old }
    { s with heap := h2, front := some nw, len := s.len + 1 }
  | none =>
    { s with back := some nw, front := some nw, len := s.len + 1 }

/-- `LinkedDeque::push_back`. -/
def push_back (nw : Nat) (s : DState) : DState :=
  match s.back with
  | some old =>
    let h1 := hupd s.heap old { s.heap old with back := some nw }
    let h2 := hupd h1 nw { h1 nw with front := some old }
    { s with heap := h2, back := some nw, len := s.len + 1 }
  | none =>
    { s with front := some nw, back := some nw, len := s.len + 1 }

/-- `LinkedDeque::pop_back`, transcribed exactly as written: note that the
source maps over `self.front` (not `self.back`). -/
def pop_back (s : DState) : Option Nat × DState :=
  match s.front with
  | none => (none, s)
  | some node =>
    let newBack := (s.heap node).front
    match newBack with
    | some nw =>
      let h := hupd s.heap nw { s.heap nw with back := none }
      (some node, { s with heap := h, back := newBack, len := s.len - 1 })
    | none =>
      (some node, { s with back := newBack, front := none, len := s.len - 1 })

/-- `CursorMut`: the list state plus the cursor's current node and logical
index (`none` is the ghost position). -/
structure CState where
  d : DState
  current : Option Nat
  index : Option Nat

/-- `LinkedDeque::cursor_mut`. -/
def cursor_mut (s : DState) : CState :=
  ⟨s, none, none⟩

/-- `CursorMut::move_next`. -/
def move_next (c : CState) : CState :=
  match c.current with
  | some cur =>
    let nc := (c.d.heap cur).back
    { c with
      current := nc,
      index := match nc with
        | some _ => c.index.map (fun x => x + 1)
        | none => none }
  | none =>
    if c.d.len ≠ 0 then
      { c with current := c.d.front, index := some 0 }
    else
      c

/-- `CursorMut::insert_before`, transcribed exactly as written: in the
non-ghost branch the source writes only `node.back` and (when the current
node has a predecessor `x`) `x.back`. -/
def insert_before (node : Nat) (c : CState) : CState :=
  match c.current with
  | some cur =>
    let h1 := hupd c.d.heap node { c.d.heap node with back := some cur }
    let h2 :=
      match (h1 cur).front with
      | some x => hupd h1 x { h1 x with back := some node }
      | none => h1
    { c with
      d := { c.d with heap := h2, len := c.d.len + 1 },
      index := c.index.map (fun x => x + 1) }
  | none =>
    move_next { c with d := push_front node c.d }

/-- An initial heap holding fresh (`Node::new`) records at every address,
with an empty deque. -/
def dequeInit : DState :=
  ⟨fun a => ⟨none, none, a⟩, none, none, 0⟩

/-- The one-element deque `[1]`, built by `push_back`. -/
def dequeA : DState := push_back 1 dequeInit

/-- The two-element deque `[1, 2]`, built by two `push_back` calls
(so node `2` is the back, the most recently pushed node). -/
def dequeAB : DState := push_back 2 dequeA

/-- The state after moving a fresh cursor onto the sole member of `[1]`
and calling `insert_before 2` there. -/
def c9state : CState :=
  insert_before 2 (move_next (cursor_mut dequeA))

end DequeList

namespace AllocTesting

/-! ### Arithmetic toolkit: `nextMul`, `alignOffset`, powers of two -/

theorem le_nextMul (n a : Nat) (ha : 0 < a) : n ≤ nextMul n a := by
  have h1 := Nat.div_add_mod (n + a - 1) a
  have h2 := Nat.mod_lt (n + a - 1) ha
  have h3 : (n + a - 1) / a * a = a * ((n + a - 1) / a) := Nat.mul_comm _ _
  unfold nextMul
  omega

theorem dvd_nextMul (n a : Nat) : a ∣ nextMul n a :=
  Dvd.intro_left _ rfl

theorem nextMul_lt_add (n a : Nat) (ha : 0 < a) : nextMul n a < n + a := by
  have h1 := Nat.div_add_mod (n + a - 1) a
  have h2 := Nat.mod_lt (n + a - 1) ha
  have h3 : (n + a - 1) / a * a = a * ((n + a - 1) / a) := Nat.mul_comm _ _
  unfold nextMul
  omega

theorem nextMul_eq_of_dvd {n a : Nat} (ha : 0 < a) (h : a ∣ n) :
    nextMul n a = n := by
  obtain ⟨k, hk⟩ := h
  subst hk
  unfold nextMul
  have h1 : a * k + a - 1 = a * k + (a - 1) := by omega
  rw [h1, Nat.mul_add_div ha, Nat.div_eq_of_lt (by omega), Nat.add_zero,
    Nat.mul_comm]

theorem alignOffset_lt (p a : Nat) (ha : 0 < a) : alignOffset p a < a :=
  Nat.mod_lt _ ha

theorem dvd_add_alignOffset (p a : Nat) (ha : 0 < a) :
    a ∣ (p + alignOffset p a) := by
  unfold alignOffset
  rcases Nat.eq_zero_or_pos (p % a) with hp | hp
  · rw [hp, Nat.sub_zero, Nat.mod_self, Nat.add_zero]
    exact Nat.dvd_of_mod_eq_zero hp
  · have hlt : a - p % a < a := by omega
    rw [Nat.mod_eq_of_lt hlt]
    refine ⟨p / a + 1, ?_⟩
    have h1 := Nat.div_add_mod p a
    have h2 : p % a < a := Nat.mod_lt _ ha
    have h3 : a * (p / a + 1) = a * (p / a) + a := by ring
    omega

theorem alignOffset_min {p a x : Nat} (ha : 0 < a) (hx : a ∣ x) (hpx : p ≤ x) :
    p + alignOffset p a ≤ x := by
  obtain ⟨k, hk⟩ := hx
  obtain ⟨j, hj⟩ := dvd_add_alignOffset p a ha
  have h1 : alignOffset p a < a := alignOffset_lt p a ha
  have h2 : a * j < a * (k + 1) := by
    have : a * (k + 1) = a * k + a := by ring
    omega
  have h3 : j < k + 1 := Nat.lt_of_mul_lt_mul_left h2
  have h4 : a * j ≤ a * k := Nat.mul_le_mul_left a (by omega)
  omega

theorem alignOffset_le_of_dvd {p a b : Nat} (hb : 0 < b) (ha : 0 < a)
    (hdvd : b ∣ a) : alignOffset p b ≤ alignOffset p a := by
  have h1 : b ∣ (p + alignOffset p a) :=
    hdvd.trans (dvd_add_alignOffset p a ha)
  have h2 : p ≤ p + alignOffset p a := Nat.le_add_right _ _
  have := alignOffset_min hb h1 h2
  omega

theorem IsPow2.pos {a : Nat} (h : IsPow2 a) : 0 < a := by
  obtain ⟨k, rfl⟩ := h
  exact Nat.pos_pow_of_pos k (by omega)

theorem IsPow2.dvd_of_le {a b : Nat} (hap : IsPow2 a) (hbp : IsPow2 b)
    (h : a ≤ b) : a ∣ b := by
  obtain ⟨i, rfl⟩ := hap
  obtain ⟨j, rfl⟩ := hbp
  exact Nat.pow_dvd_pow 2 ((Nat.pow_le_pow_iff_right (by norm_num)).mp h)

theorem eight_pow2 : IsPow2 8 := ⟨3, rfl⟩

theorem IsPow2.dvd_eight {a : Nat} (hap : IsPow2 a) (h : a ≤ 8) : a ∣ 8 :=
  hap.dvd_of_le eight_pow2 h

theorem IsPow2.eight_dvd {a : Nat} (hap : IsPow2 a) (h : 8 < a) : 8 ∣ a :=
  eight_pow2.dvd_of_le hap (by omega)

/-! ### Block-descriptor arithmetic -/

theorem default_meta_offset_eq (b : Nat) :
    MetaData.default_meta_offset b = alignOffset b NODE_ALIGN := by
  have h8 : nextMul NODE_SIZE NODE_ALIGN = NODE_SIZE := by decide
  have hlt : alignOffset b NODE_ALIGN < NODE_ALIGN :=
    alignOffset_lt _ _ (by decide)
  simp only [MetaData.default_meta_offset, MetaData.meta_location,
    MetaData.data_location, MetaData.extra_size, Nat.max_self, h8]
  omega

theorem nextMul_node : nextMul NODE_SIZE NODE_ALIGN = NODE_SIZE := rfl

theorem total_size_def (m : MetaData) :
    m.total_size = m.layout.size + m.extra_size := rfl

theorem endAddr_def (m : MetaData) : m.endAddr = m.base + m.total_size := rfl

theorem extra_size_set_size (b s : Nat) (l : LayoutM) :
    (MetaData.mk b ⟨s, l.align⟩).extra_size = (MetaData.mk b l).extra_size :=
  rfl

theorem extra_size_node_align (b s : Nat) :
    (MetaData.mk b ⟨s, NODE_ALIGN⟩).extra_size =
      NODE_SIZE + alignOffset b NODE_ALIGN := by
  simp only [MetaData.extra_size, nextMul_node, Nat.max_self]

theorem node_le_extra_size (m : MetaData) (ha : 0 < m.layout.align) :
    NODE_SIZE ≤ m.extra_size := by
  have h1 := le_nextMul NODE_SIZE m.layout.align ha
  simp only [MetaData.extra_size]
  omega

theorem total_size_pos (m : MetaData) (ha : 0 < m.layout.align) :
    0 < m.total_size := by
  have h1 := node_le_extra_size m ha
  simp only [MetaData.total_size]
  simp only [NODE_SIZE] at h1
  omega

theorem extra_size_le8 (m : MetaData) (hp : IsPow2 m.layout.align)
    (h8 : m.layout.align ≤ 8) :
    m.extra_size = NODE_SIZE + alignOffset m.base NODE_ALIGN := by
  have hd8 : m.layout.align ∣ 8 := hp.dvd_eight h8
  have hd40 : m.layout.align ∣ NODE_SIZE := hd8.trans ⟨5, rfl⟩
  have hmax : max m.layout.align NODE_ALIGN = NODE_ALIGN := by
    simp only [NODE_ALIGN]
    omega
  simp only [MetaData.extra_size, hmax, nextMul_eq_of_dvd hp.pos hd40]

theorem extra_size_ge (m : MetaData) (hp : IsPow2 m.layout.align) :
    NODE_SIZE + alignOffset m.base NODE_ALIGN ≤ m.extra_size := by
  rcases le_or_lt m.layout.align 8 with h8 | h8
  · rw [extra_size_le8 m hp h8]
  · have hmax : max m.layout.align NODE_ALIGN = m.layout.align := by
      simp only [NODE_ALIGN]
      omega
    have h1 := le_nextMul NODE_SIZE m.layout.align hp.pos
    have h2 : alignOffset m.base NODE_ALIGN ≤ alignOffset m.base m.layout.align :=
      alignOffset_le_of_dvd (by decide) hp.pos (by
        simpa only [NODE_ALIGN] using hp.eight_dvd h8)
    simp only [MetaData.extra_size, hmax]
    omega

theorem data_location_mod (m : MetaData) (hp : IsPow2 m.layout.align) :
    m.data_location % m.layout.align = 0 := by
  suffices h : m.layout.align ∣ m.data_location by
    obtain ⟨k, hk⟩ := h
    rw [hk]
    exact Nat.mul_mod_right _ _
  rcases le_or_lt m.layout.align 8 with h8 | h8
  · have hd8 : m.layout.align ∣ 8 := hp.dvd_eight h8
    have hmax : max m.layout.align NODE_ALIGN = NODE_ALIGN := by
      simp only [NODE_ALIGN]
      omega
    have h1 : m.layout.align ∣ (m.base + alignOffset m.base NODE_ALIGN) := by
      refine hd8.trans ?_
      simpa only [NODE_ALIGN] using dvd_add_alignOffset m.base 8 (by decide)
    have h2 : m.layout.align ∣ nextMul NODE_SIZE m.layout.align :=
      dvd_nextMul _ _
    have h3 : m.data_location =
        (m.base + alignOffset m.base NODE_ALIGN) +
          nextMul NODE_SIZE m.layout.align := by
      simp only [MetaData.data_location, MetaData.extra_size, hmax]
      omega
    rw [h3]
    exact Nat.dvd_add h1 h2
  · have hmax : max m.layout.align NODE_ALIGN = m.layout.align := by
      simp only [NODE_ALIGN]
      omega
    have h1 : m.layout.align ∣ (m.base + alignOffset m.base m.layout.align) :=
      dvd_add_alignOffset m.base m.layout.align hp.pos
    have h2 : m.layout.align ∣ nextMul NODE_SIZE m.layout.align :=
      dvd_nextMul _ _
    have h3 : m.data_location =
        (m.base + alignOffset m.base m.layout.align) +
          nextMul NODE_SIZE m.layout.align := by
      simp only [MetaData.data_location, MetaData.extra_size, hmax]
      omega
    rw [h3]
    exact Nat.dvd_add h1 h2

theorem new_blank_page (b : Nat) :
    (MetaData.new_blank b PAGE_SIZE).base = b ∧
    (MetaData.new_blank b PAGE_SIZE).total_size = PAGE_SIZE ∧
    (MetaData.new_blank b PAGE_SIZE).layout.align = NODE_ALIGN := by
  have hlt : alignOffset b NODE_ALIGN < NODE_ALIGN :=
    alignOffset_lt _ _ (by decide)
  have hdmo := default_meta_offset_eq b
  refine ⟨rfl, ?_, rfl⟩
  have htot : (MetaData.new_blank b PAGE_SIZE).total_size =
      (PAGE_SIZE - (MetaData.default_meta_offset b + NODE_SIZE)) +
        (NODE_SIZE + alignOffset b NODE_ALIGN) := by
    simp only [MetaData.new_blank, total_size_def, extra_size_node_align]
  rw [htot, hdmo]
  simp only [NODE_SIZE, NODE_ALIGN, PAGE_SIZE] at hlt ⊢
  omega

/-! ### `mergeAdj` and `node_split` -/

theorem mergeAdj_some {l r c : MetaData} (h : mergeAdj l r = some c) :
    l.endAddr = r.base ∧ c.base = l.base ∧ c.layout.align = l.layout.align ∧
    c.total_size = l.total_size + r.total_size ∧ c.endAddr = r.endAddr := by
  unfold mergeAdj at h
  split at h
  case isTrue hadj =>
    cases h
    have h1 : (MetaData.mk l.base ⟨l.layout.size + r.total_size, l.layout.align⟩).total_size
        = (l.layout.size + r.total_size) + l.extra_size := rfl
    have h2 : l.total_size = l.layout.size + l.extra_size := rfl
    refine ⟨hadj, rfl, rfl, by omega, ?_⟩
    simp only [MetaData.endAddr] at hadj ⊢
    omega
  case isFalse => cases h

theorem mergeAdj_none {l r : MetaData} (h : mergeAdj l r = none) :
    l.endAddr ≠ r.base := by
  unfold mergeAdj at h
  split at h
  case isTrue => cases h
  case isFalse hne => exact hne

theorem node_split_head {m : MetaData} {lay : LayoutM} {h : MetaData}
    {r : Option MetaData} (hs : node_split m lay = some (h, r)) :
    h.base = m.base ∧ h.layout.align = lay.align ∧
    (MetaData.mk m.base lay).total_size ≤ m.total_size ∧
    (MetaData.mk m.base lay).total_size ≤ h.total_size := by
  simp only [node_split] at hs
  split at hs
  case isTrue hle =>
    split at hs
    case isTrue hreq =>
      cases hs
      exact ⟨rfl, rfl, hle, Nat.le_refl _⟩
    case isFalse hreq =>
      cases hs
      refine ⟨rfl, rfl, hle, ?_⟩
      have h1 : (MetaData.mk m.base
          ⟨lay.size + (m.total_size - (MetaData.mk m.base lay).total_size), lay.align⟩).total_size
          = (lay.size + (m.total_size - (MetaData.mk m.base lay).total_size)) +
            (MetaData.mk m.base lay).extra_size := rfl
      have h2 : (MetaData.mk m.base lay).total_size =
          lay.size + (MetaData.mk m.base lay).extra_size := rfl
      omega
  case isFalse => cases hs

theorem node_split_rem {m : MetaData} {lay : LayoutM} {h rm : MetaData}
    (hs : node_split m lay = some (h, some rm)) :
    h = MetaData.mk m.base lay ∧ rm.base = m.base + h.total_size ∧
    h.total_size + rm.total_size = m.total_size ∧
    NODE_SIZE ≤ rm.total_size ∧ rm.layout.align = NODE_ALIGN := by
  simp only [node_split] at hs
  split at hs
  case isTrue hle =>
    split at hs
    case isTrue hreq =>
      cases hs
      refine ⟨rfl, rfl, ?_, ?_, rfl⟩
      all_goals {
        have h1 : (MetaData.mk (m.base + (MetaData.mk m.base lay).total_size)
            ⟨m.total_size - (MetaData.mk m.base lay).total_size -
              (MetaData.default_meta_offset
                (m.base + (MetaData.mk m.base lay).total_size) + NODE_SIZE),
              NODE_ALIGN⟩).total_size =
            (m.total_size - (MetaData.mk m.base lay).total_size -
              (MetaData.default_meta_offset
                (m.base + (MetaData.mk m.base lay).total_size) + NODE_SIZE)) +
            (NODE_SIZE +
              alignOffset (m.base + (MetaData.mk m.base lay).total_size) NODE_ALIGN) := by
          simp only [total_size_def, extra_size_node_align]
        have hdmo := default_meta_offset_eq (m.base + (MetaData.mk m.base lay).total_size)
        omega
      }
    case isFalse hreq => cases hs
  case isFalse => cases hs

theorem node_split_fold {m : MetaData} {lay : LayoutM} {h : MetaData}
    (hs : node_split m lay = some (h, none)) :
    h.total_size = m.total_size ∧ h.base = m.base ∧ h.layout.align = lay.align ∧
    lay.size ≤ h.layout.size ∧
    m.total_size - (MetaData.mk m.base lay).total_size ≤
      MetaData.default_meta_offset (m.base + (MetaData.mk m.base lay).total_size) +
        NODE_SIZE := by
  simp only [node_split] at hs
  split at hs
  case isTrue hle =>
    split at hs
    case isTrue hreq => cases hs
    case isFalse hreq =>
      cases hs
      have h1 : (MetaData.mk m.base
          ⟨lay.size + (m.total_size - (MetaData.mk m.base lay).total_size), lay.align⟩).total_size
          = (lay.size + (m.total_size - (MetaData.mk m.base lay).total_size)) +
            (MetaData.mk m.base lay).extra_size := rfl
      have h2 : (MetaData.mk m.base lay).total_size =
          lay.size + (MetaData.mk m.base lay).extra_size := rfl
      exact ⟨by omega, rfl, rfl, by simp, by omega⟩
  case isFalse => cases hs

theorem node_split_of_le {m : MetaData} {lay : LayoutM}
    (hle : (MetaData.mk m.base lay).total_size ≤ m.total_size) :
    ∃ h r, node_split m lay = some (h, r) := by
  simp only [node_split, hle, if_true]
  split
  · exact ⟨_, _, rfl⟩
  · exact ⟨_, _, rfl⟩

/-! ### Gap chains over the free list -/

theorem disj_le_left {n x : MetaData} (h : Disj n x) (hb : x.base ≤ n.base)
    (hn : 0 < n.total_size) : x.endAddr ≤ n.base := by
  rcases h with h | h
  · simp only [MetaData.endAddr] at h
    omega
  · exact h

theorem disj_le_right {n x : MetaData} (h : Disj n x) (hb : n.base < x.base)
    (hx : 0 < x.total_size) : n.endAddr ≤ x.base := by
  rcases h with h | h
  · exact h
  · simp only [MetaData.endAddr] at h
    omega

theorem chain_gap_forall {x : MetaData} {xs : List MetaData}
    (hc : (x :: xs).Chain' gapped)
    (hpos : ∀ m ∈ xs, 0 < m.total_size) :
    ∀ y ∈ xs, gapped x y := by
  induction xs generalizing x with
  | nil => intro y hy; cases hy
  | cons z zs ih =>
    rw [List.chain'_cons] at hc
    intro y hy
    rcases List.mem_cons.mp hy with rfl | hy
    · exact hc.1
    · have hz := ih hc.2 (fun m hm => hpos m (List.mem_cons_of_mem z hm)) y hy
      have hposz : 0 < z.total_size := hpos z (List.mem_cons_self z zs)
      simp only [gapped, MetaData.endAddr] at hc hz ⊢
      omega

theorem chain_gap_pairwise {xs : List MetaData}
    (hc : xs.Chain' gapped)
    (hpos : ∀ m ∈ xs, 0 < m.total_size) :
    xs.Pairwise gapped := by
  induction xs with
  | nil => exact List.Pairwise.nil
  | cons x zs ih =>
    refine List.pairwise_cons.mpr ⟨?_, ?_⟩
    · exact chain_gap_forall hc (fun m hm => hpos m (List.mem_cons_of_mem x hm))
    · exact ih (List.chain'_cons'.mp hc).2 (fun m hm => hpos m (List.mem_cons_of_mem x hm))

theorem chain_gap_middle {pre post : List MetaData} {E : MetaData}
    (hc : (pre ++ E :: post).Chain' gapped)
    (hpos : ∀ m ∈ pre ++ E :: post, 0 < m.total_size) :
    (∀ x ∈ pre, x.endAddr < E.base) ∧ (∀ y ∈ post, E.endAddr < y.base) ∧
    (pre ++ post).Chain' gapped := by
  induction pre with
  | nil =>
    refine ⟨fun x hx => absurd hx (List.not_mem_nil x), ?_, ?_⟩
    · exact chain_gap_forall hc
        (fun m hm => hpos m (List.mem_cons_of_mem E hm))
    · exact (List.chain'_cons'.mp hc).2
  | cons x pre' ih =>
    rw [List.cons_append, List.chain'_cons'] at hc
    have hpos' : ∀ m ∈ pre' ++ E :: post, 0 < m.total_size :=
      fun m hm => hpos m (by
        rw [List.cons_append]
        exact List.mem_cons_of_mem x hm)
    obtain ⟨h1, h2, h3⟩ := ih hc.2 hpos'
    have hall : ∀ y ∈ pre' ++ E :: post, gapped x y := by
      have hch : (x :: (pre' ++ E :: post)).Chain' gapped :=
        List.chain'_cons'.mpr hc
      exact chain_gap_forall hch hpos'
    refine ⟨?_, h2, ?_⟩
    · intro z hz
      rcases List.mem_cons.mp hz with rfl | hz
      · exact hall E (by simp)
      · exact h1 z hz
    · rw [List.cons_append, List.chain'_cons']
      refine ⟨?_, h3⟩
      intro y hy
      have hmem : y ∈ pre' ++ post := List.mem_of_mem_head? hy
      rcases List.mem_append.mp hmem with hy' | hy'
      · exact hall y (List.mem_append_left _ hy')
      · exact hall y (List.mem_append_right _ (List.mem_cons_of_mem E hy'))

/-! ### The deallocate scan preserves the free-list invariant -/
theorem deallocScan_aux (n : MetaData) (hn : 0 < n.total_size) :
    ∀ (xs : List MetaData) (left : Option MetaData),
      (leftList left ++ xs).Chain' gapped →
      (∀ x ∈ leftList left ++ xs, 0 < x.total_size) →
      (∀ x ∈ leftList left ++ xs, Disj n x) →
      (∀ l ∈ leftList left, l.base ≤ n.base) →
      (deallocScan n left xs).Chain' gapped ∧
      (∀ y ∈ deallocScan n left xs, 0 < y.total_size) ∧
      (∀ y ∈ deallocScan n left xs, ∀ k, inExt y k →
        inExt n k ∨ ∃ x ∈ leftList left ++ xs, inExt x k) ∧
      (∀ l ∈ leftList left, ∃ h t, deallocScan n left xs = h :: t ∧ h.base = l.base) := by
  intro xs
  induction xs with
  | nil =>
    intro left hc hpos hdisj hle
    cases left with
    | none =>
      simp only [deallocScan]
      refine ⟨List.chain'_singleton n, ?_, ?_, ?_⟩
      · intro y hy
        rcases List.mem_singleton.mp hy with rfl
        exact hn
      · intro y hy k hk
        rcases List.mem_singleton.mp hy with rfl
        exact Or.inl hk
      · intro l hl
        cases hl
    | some l =>
      simp only [leftList, List.singleton_append] at hc hpos hdisj hle
      have hposl : 0 < l.total_size := hpos l (by simp)
      have hdisjl : Disj n l := hdisj l (by simp)
      have hlel : l.base ≤ n.base := hle l (by simp)
      have hend : l.endAddr ≤ n.base := disj_le_left hdisjl hlel hn
      simp only [deallocScan]
      cases hm : mergeAdj l n with
      | some ln =>
        obtain ⟨hadj, hbase, _, htot, hendeq⟩ := mergeAdj_some hm
        refine ⟨List.chain'_singleton ln, ?_, ?_, ?_⟩
        · intro y hy
          rcases List.mem_singleton.mp hy with rfl
          omega
        · intro y hy k hk
          rcases List.mem_singleton.mp hy with rfl
          simp only [inExt, MetaData.endAddr] at hk hadj hendeq ⊢
          rcases Nat.lt_or_ge k (l.base + l.total_size) with h | h
          · refine Or.inr ⟨l, by simp [leftList], ?_⟩
            omega
          · exact Or.inl (by omega)
        · intro l' hl'
          rcases List.mem_singleton.mp hl' with rfl
          exact ⟨ln, [], rfl, hbase⟩
      | none =>
        have hne := mergeAdj_none hm
        refine ⟨?_, ?_, ?_, ?_⟩
        · rw [List.chain'_cons]
          exact ⟨by simp only [gapped]; omega, List.chain'_singleton n⟩
        · intro y hy
          rcases List.mem_cons.mp hy with rfl | hy
          · exact hposl
          · rcases List.mem_singleton.mp hy with rfl
            exact hn
        · intro y hy k hk
          rcases List.mem_cons.mp hy with rfl | hy
          · exact Or.inr ⟨y, by simp [leftList], hk⟩
          · rcases List.mem_singleton.mp hy with rfl
            exact Or.inl hk
        · intro l' hl'
          rcases List.mem_singleton.mp hl' with rfl
          exact ⟨l', [n], rfl, rfl⟩
  | cons x rest ih =>
    intro left hc hpos hdisj hle
    have hposx : 0 < x.total_size := hpos x (by
      cases left <;> simp [leftList])
    have hdisjx : Disj n x := hdisj x (by
      cases left <;> simp [leftList])
    by_cases hlt : n.base < x.base
    · -- insertion point: n goes right before x
      have hnx : n.endAddr ≤ x.base := disj_le_right hdisjx hlt hposx
      have hcx : (x :: rest).Chain' gapped := by
        cases left with
        | none => simpa only [leftList, List.nil_append] using hc
        | some l =>
          simp only [leftList, List.singleton_append] at hc
          exact (List.chain'_cons'.mp hc).2
      have hheads : ∀ y ∈ rest.head?, gapped x y := (List.chain'_cons'.mp hcx).1
      have hcrest : rest.Chain' gapped := (List.chain'_cons'.mp hcx).2
      cases hmr : mergeAdj n x with
      | some nx =>
        obtain ⟨hadj, hbase, _, htot, hendeq⟩ := mergeAdj_some hmr
        have hgapnx : ∀ y ∈ rest.head?, gapped nx y := by
          intro y hy
          have := hheads y hy
          simp only [gapped] at this ⊢
          omega
        cases left with
        | none =>
          simp only [deallocScan, if_pos hlt, hmr, leftList, List.nil_append] at *
          refine ⟨?_, ?_, ?_, ?_⟩
          · exact List.chain'_cons'.mpr ⟨hgapnx, hcrest⟩
          · intro y hy
            rcases List.mem_cons.mp hy with rfl | hy
            · omega
            · exact hpos y (by simp [hy])
          · intro y hy k hk
            rcases List.mem_cons.mp hy with rfl | hy
            · simp only [inExt, MetaData.endAddr] at hk hadj hendeq ⊢
              rcases Nat.lt_or_ge k (n.base + n.total_size) with h | h
              · exact Or.inl (by omega)
              · refine Or.inr ⟨x, by simp, ?_⟩
                omega
            · exact Or.inr ⟨y, by simp [hy], hk⟩
          · intro l hl
            cases hl
        | some l =>
          simp only [leftList, List.singleton_append] at hc hpos hdisj hle
          have hposl : 0 < l.total_size := hpos l (by simp)
          have hdisjl : Disj n l := hdisj l (by simp)
          have hlel : l.base ≤ n.base := hle l (by simp)
          have hendl : l.endAddr ≤ n.base := disj_le_left hdisjl hlel hn
          cases hml : mergeAdj l nx with
          | some lnx =>
            obtain ⟨hadj2, hbase2, _, htot2, hendeq2⟩ := mergeAdj_some hml
            simp only [deallocScan, if_pos hlt, hmr, hml, leftList]
            refine ⟨?_, ?_, ?_, ?_⟩
            · refine List.chain'_cons'.mpr ⟨?_, hcrest⟩
              intro y hy
              have := hheads y hy
              simp only [gapped, MetaData.endAddr] at this hendeq2 hendeq ⊢
              omega
            · intro y hy
              rcases List.mem_cons.mp hy with rfl | hy
              · omega
              · exact hpos y (by simp [hy])
            · intro y hy k hk
              rcases List.mem_cons.mp hy with rfl | hy
              · simp only [inExt, MetaData.endAddr] at hk hadj hendeq hadj2 hendeq2 ⊢
                rcases Nat.lt_or_ge k (l.base + l.total_size) with h | h
                · refine Or.inr ⟨l, by simp, ?_⟩
                  omega
                · rcases Nat.lt_or_ge k (n.base + n.total_size) with h' | h'
                  · exact Or.inl (by omega)
                  · refine Or.inr ⟨x, by simp, ?_⟩
                    omega
              · exact Or.inr ⟨y, by simp [hy], hk⟩
            · intro l' hl'
              rcases List.mem_singleton.mp hl' with rfl
              exact ⟨lnx, rest, rfl, hbase2⟩
          | none =>
            have hne2 := mergeAdj_none hml
            rw [hbase] at hne2
            simp only [deallocScan, if_pos hlt, hmr, hml, leftList]
            refine ⟨?_, ?_, ?_, ?_⟩
            · rw [List.chain'_cons]
              refine ⟨?_, List.chain'_cons'.mpr ⟨hgapnx, hcrest⟩⟩
              simp only [gapped]
              omega
            · intro y hy
              rcases List.mem_cons.mp hy with rfl | hy
              · exact hposl
              · rcases List.mem_cons.mp hy with rfl | hy
                · omega
                · exact hpos y (by simp [hy])
            · intro y hy k hk
              rcases List.mem_cons.mp hy with rfl | hy
              · exact Or.inr ⟨y, by simp, hk⟩
              · rcases List.mem_cons.mp hy with rfl | hy
                · simp only [inExt, MetaData.endAddr] at hk hadj hendeq ⊢
                  rcases Nat.lt_or_ge k (n.base + n.total_size) with h | h
                  · exact Or.inl (by omega)
                  · refine Or.inr ⟨x, by simp, ?_⟩
                    omega
                · exact Or.inr ⟨y, by simp [hy], hk⟩
            · intro l' hl'
              rcases List.mem_singleton.mp hl' with rfl
              exact ⟨l', nx :: rest, rfl, rfl⟩
      | none =>
        have hne := mergeAdj_none hmr
        have hend2 : gapped n x := by
          simp only [gapped]
          simp only [MetaData.endAddr] at hnx hne ⊢
          omega
        cases left with
        | none =>
          simp only [deallocScan, if_pos hlt, hmr, leftList, List.nil_append] at *
          refine ⟨?_, ?_, ?_, ?_⟩
          · exact List.chain'_cons.mpr ⟨hend2, hcx⟩
          · intro y hy
            rcases List.mem_cons.mp hy with rfl | hy
            · exact hn
            · exact hpos y (by simp [hy])
          · intro y hy k hk
            rcases List.mem_cons.mp hy with rfl | hy
            · exact Or.inl hk
            · exact Or.inr ⟨y, by simp [hy], hk⟩
          · intro l hl
            cases hl
        | some l =>
          simp only [leftList, List.singleton_append] at hc hpos hdisj hle
          have hposl : 0 < l.total_size := hpos l (by simp)
          have hdisjl : Disj n l := hdisj l (by simp)
          have hlel : l.base ≤ n.base := hle l (by simp)
          have hendl : l.endAddr ≤ n.base := disj_le_left hdisjl hlel hn
          cases hml : mergeAdj l n with
          | some ln =>
            obtain ⟨hadj2, hbase2, _, htot2, hendeq2⟩ := mergeAdj_some hml
            simp only [deallocScan, if_pos hlt, hmr, hml, leftList]
            refine ⟨?_, ?_, ?_, ?_⟩
            · refine List.chain'_cons.mpr ⟨?_, hcx⟩
              simp only [gapped] at hend2 ⊢
              simp only [MetaData.endAddr] at hendeq2 hend2 ⊢
              omega
            · intro y hy
              rcases List.mem_cons.mp hy with rfl | hy
              · omega
              · exact hpos y (by simp [hy])
            · intro y hy k hk
              rcases List.mem_cons.mp hy with rfl | hy
              · simp only [inExt, MetaData.endAddr] at hk hadj2 hendeq2 ⊢
                rcases Nat.lt_or_ge k (l.base + l.total_size) with h | h
                · refine Or.inr ⟨l, by simp, ?_⟩
                  omega
                · exact Or.inl (by omega)
              · exact Or.inr ⟨y, by simp [hy], hk⟩
            · intro l' hl'
              rcases List.mem_singleton.mp hl' with rfl
              exact ⟨ln, x :: rest, rfl, hbase2⟩
          | none =>
            have hne2 := mergeAdj_none hml
            simp only [deallocScan, if_pos hlt, hmr, hml, leftList]
            refine ⟨?_, ?_, ?_, ?_⟩
            · refine List.chain'_cons.mpr ⟨?_, List.chain'_cons.mpr ⟨hend2, hcx⟩⟩
              simp only [gapped]
              omega
            · intro y hy
              rcases List.mem_cons.mp hy with rfl | hy
              · exact hposl
              · rcases List.mem_cons.mp hy with rfl | hy
                · exact hn
                · exact hpos y (by simp [hy])
            · intro y hy k hk
              rcases List.mem_cons.mp hy with rfl | hy
              · exact Or.inr ⟨y, by simp, hk⟩
              · rcases List.mem_cons.mp hy with rfl | hy
                · exact Or.inl hk
                · exact Or.inr ⟨y, by simp [hy], hk⟩
            · intro l' hl'
              rcases List.mem_singleton.mp hl' with rfl
              exact ⟨l', n :: x :: rest, rfl, rfl⟩
    · -- skip x and continue scanning with x as the new left neighbour
      have hxle : x.base ≤ n.base := by omega
      have hcx : (leftList (some x) ++ rest).Chain' gapped := by
        simp only [leftList, List.singleton_append]
        cases left with
        | none => simpa only [leftList, List.nil_append] using hc
        | some l =>
          simp only [leftList, List.singleton_append] at hc
          exact (List.chain'_cons'.mp hc).2
      have hpos' : ∀ z ∈ leftList (some x) ++ rest, 0 < z.total_size := by
        simp only [leftList, List.singleton_append]
        intro z hz
        refine hpos z ?_
        cases left with
        | none => simpa only [leftList, List.nil_append] using hz
        | some l =>
          simp only [leftList, List.singleton_append]
          exact List.mem_cons_of_mem l hz
      have hdisj' : ∀ z ∈ leftList (some x) ++ rest, Disj n z := by
        simp only [leftList, List.singleton_append]
        intro z hz
        refine hdisj z ?_
        cases left with
        | none => simpa only [leftList, List.nil_append] using hz
        | some l =>
          simp only [leftList, List.singleton_append]
          exact List.mem_cons_of_mem l hz
      have hle' : ∀ l' ∈ leftList (some x), l'.base ≤ n.base := by
        intro l' hl'
        rcases List.mem_singleton.mp hl' with rfl
        exact hxle
      obtain ⟨ihc, ihpos, ihcov, ihhead⟩ := ih (some x) hcx hpos' hdisj' hle'
      cases left with
      | none =>
        simp only [deallocScan, if_neg hlt, leftList, List.nil_append] at *
        refine ⟨ihc, ihpos, ?_, ?_⟩
        · intro y hy k hk
          rcases ihcov y hy k hk with h | ⟨z, hz, hzk⟩
          · exact Or.inl h
          · exact Or.inr ⟨z, hz, hzk⟩
        · intro l hl
          cases hl
      | some l =>
        simp only [leftList, List.singleton_append] at hc hpos hdisj hle
        have hposl : 0 < l.total_size := hpos l (by simp)
        have hgaplx : gapped l x := (List.chain'_cons.mp hc).1
        simp only [deallocScan, if_neg hlt, leftList]
        refine ⟨?_, ?_, ?_, ?_⟩
        · obtain ⟨h, t, hht, hhb⟩ := ihhead x (by simp [leftList])
          rw [hht]
          refine List.chain'_cons.mpr ⟨?_, hht ▸ ihc⟩
          simp only [gapped] at hgaplx ⊢
          omega
        · intro y hy
          rcases List.mem_cons.mp hy with rfl | hy
          · exact hposl
          · exact ihpos y hy
        · intro y hy k hk
          rcases List.mem_cons.mp hy with rfl | hy
          · exact Or.inr ⟨y, by simp, hk⟩
          · rcases ihcov y hy k hk with h | ⟨z, hz, hzk⟩
            · exact Or.inl h
            · refine Or.inr ⟨z, ?_, hzk⟩
              simp only [leftList, List.singleton_append] at hz
              rcases List.mem_cons.mp hz with rfl | hz
              · simp
              · simp [hz]
        · intro l' hl'
          rcases List.mem_singleton.mp hl' with rfl
          exact ⟨l', deallocScan n (some x) rest, rfl, rfl⟩

/-- The conclusions of `deallocScan_aux` for the top-level `dealloc`. -/
theorem dealloc_props {n : MetaData} {free : List MetaData}
    (hchain : free.Chain' gapped)
    (hpos : ∀ x ∈ free, 0 < x.total_size)
    (hn : 0 < n.total_size)
    (hdisj : ∀ x ∈ free, Disj n x) :
    (dealloc n free).Chain' gapped ∧
    (∀ y ∈ dealloc n free, 0 < y.total_size) ∧
    (∀ y ∈ dealloc n free, ∀ k, inExt y k →
      inExt n k ∨ ∃ x ∈ free, inExt x k) := by
  have h := deallocScan_aux n hn free none
    (by simpa only [leftList, List.nil_append] using hchain)
    (by simpa only [leftList, List.nil_append] using hpos)
    (by simpa only [leftList, List.nil_append] using hdisj)
    (by intro l hl; cases hl)
  simp only [leftList, List.nil_append] at h
  exact ⟨h.1, h.2.1, h.2.2.1⟩

/-- The scan of `deallocScan` walks past every member whose base is not
greater than the freed extent's, carrying the last of them as the cursor's
left neighbour. -/
theorem deallocScan_skip_phase (n : MetaData) :
    ∀ (pre : List MetaData) (left : Option MetaData) (post : List MetaData),
      (∀ x ∈ pre, ¬ n.base < x.base) →
      deallocScan n left (pre ++ post) =
        (leftList left ++ pre).dropLast ++
          deallocScan n ((leftList left ++ pre).getLast?) post := by
  intro pre
  induction pre with
  | nil =>
    intro left post _
    cases left with
    | none => simp [leftList]
    | some l => simp [leftList]
  | cons x pre' ih =>
    intro left post hskip
    have hx : ¬ n.base < x.base := hskip x (by simp)
    have ih' := ih (some x) post (fun z hz => hskip z (by simp [hz]))
    cases left with
    | none =>
      rw [List.cons_append]
      simp only [deallocScan, if_neg hx]
      rw [ih']
      simp only [leftList, List.nil_append, List.singleton_append]
    | some l =>
      rw [List.cons_append]
      simp only [deallocScan, if_neg hx]
      rw [ih']
      simp only [leftList, List.singleton_append, List.nil_append]
      rw [List.getLast?_cons_cons, List.dropLast_cons_of_ne_nil (List.cons_ne_nil x pre')]
      simp

/-! ### Disjointness helpers -/

theorem disj_symm {a b : MetaData} (h : Disj a b) : Disj b a := h.symm

theorem disj_symmetric : Symmetric Disj := by
  intro a b h
  exact disj_symm h

theorem disj_not_both {a b : MetaData} {k : Nat} (h : Disj a b)
    (ha : inExt a k) (hb : inExt b k) : False := by
  simp only [Disj, inExt] at h ha hb
  omega

theorem disj_of_no_common {a f : MetaData} (hpa : 0 < a.total_size)
    (hpf : 0 < f.total_size)
    (h : ∀ k, inExt f k → ¬ inExt a k) : Disj a f := by
  by_contra hc
  simp only [Disj, not_or, not_le, MetaData.endAddr] at hc
  refine h (max a.base f.base) ?_ ?_ <;>
    simp only [inExt, MetaData.endAddr] <;> omega

theorem inExt_base {m : MetaData} (h : 0 < m.total_size) : inExt m m.base := by
  simp only [inExt, MetaData.endAddr]
  omega

theorem inExt_top {m : MetaData} (h : 0 < m.total_size) :
    inExt m (m.endAddr - 1) := by
  simp only [inExt, MetaData.endAddr]
  omega

theorem mem_erase_duplicate {a : MetaData} :
    ∀ {l : List MetaData}, a ∈ l.erase a → List.Duplicate a l := by
  intro l
  induction l with
  | nil => intro h; cases h
  | cons b t ih =>
    intro h

    by_cases hba : b = a
    · subst hba
      rw [List.erase_cons_head] at h
      exact List.Mem.duplicate_cons_self h
    · rw [List.erase_cons_tail (by simpa using hba)] at h
      rcases List.mem_cons.mp h with rfl | h
      · exact absurd rfl hba
      · exact (ih h).cons_duplicate

theorem pairwise_disj_erase {allocd : List MetaData} {H : MetaData}
    (hp : allocd.Pairwise Disj) (hmem : H ∈ allocd) (hpos : 0 < H.total_size) :
    ∀ a ∈ allocd.erase H, Disj a H := by
  intro a ha
  by_cases heq : a = H
  · subst heq
    exfalso
    have hdup : List.Duplicate a allocd := mem_erase_duplicate ha
    have : Disj a a := (List.pairwise_iff_forall_sublist.mp hp)
      (List.duplicate_iff_sublist.mp hdup)
    simp only [Disj, MetaData.endAddr] at this
    omega
  · exact hp.forall disj_symmetric
      (List.mem_of_mem_erase ha) hmem heq

/-! ### The compatibility scan -/

theorem findCompat_some {lay : LayoutM} :
    ∀ {l pre post : List MetaData} {m : MetaData},
      findCompat lay l = some (pre, m, post) →
      l = pre ++ m :: post ∧ (∀ x ∈ pre, x.check_compatible lay = false) ∧
        m.check_compatible lay = true := by
  intro l
  induction l with
  | nil => intro pre post m h; cases h
  | cons x xs ih =>
    intro pre post m h
    simp only [findCompat] at h
    split at h
    case isTrue hcx =>
      cases h
      exact ⟨rfl, fun z hz => absurd hz (List.not_mem_nil z), hcx⟩
    case isFalse hcx =>
      cases hrec : findCompat lay xs with
      | none => rw [hrec] at h; cases h
      | some v =>
        obtain ⟨pre', m', post'⟩ := v
        rw [hrec] at h
        cases h
        obtain ⟨h1, h2, h3⟩ := ih hrec
        refine ⟨by rw [h1, List.cons_append], ?_, h3⟩
        intro z hz
        rcases List.mem_cons.mp hz with rfl | hz
        · simpa using hcx
        · exact h2 z hz

theorem findCompat_none {lay : LayoutM} :
    ∀ {l : List MetaData}, findCompat lay l = none →
      ∀ x ∈ l, x.check_compatible lay = false := by
  intro l
  induction l with
  | nil => intro _ x hx; cases hx
  | cons z xs ih =>
    intro h x hx
    simp only [findCompat] at h
    split at h
    case isTrue hcx => cases h
    case isFalse hcx =>
      rcases List.mem_cons.mp hx with rfl | hx
      · simpa using hcx
      · cases hrec : findCompat lay xs with
        | none => exact ih hrec x hx
        | some v =>
          obtain ⟨pre', m', post'⟩ := v
          rw [hrec] at h
          cases h

theorem findCompat_eq {lay : LayoutM} :
    ∀ (pre : List MetaData) (m : MetaData) (post : List MetaData),
      (∀ x ∈ pre, x.check_compatible lay = false) →
      m.check_compatible lay = true →
      findCompat lay (pre ++ m :: post) = some (pre, m, post) := by
  intro pre
  induction pre with
  | nil =>
    intro m post _ hm
    simp only [List.nil_append, findCompat, hm, if_true]
  | cons x pre' ih =>
    intro m post hpre hm
    have hx : x.check_compatible lay = false := hpre x (by simp)
    rw [List.cons_append]
    simp only [findCompat, hx, Bool.false_eq_true, if_false]
    rw [ih m post (fun z hz => hpre z (by simp [hz])) hm]

/-! ### Page growth and invariant preservation -/

theorem try_add_page_false {hb : Nat} {s s' : St}
    (h : try_add_page hb s = (false, s')) :
    s' = s ∧ FAKE_HEAP_SIZE ≤ s.top := by
  by_cases hc : FAKE_HEAP_SIZE ≤ s.top
  · simp only [try_add_page, get_page, if_pos hc] at h
    cases h
    exact ⟨rfl, hc⟩
  · simp only [try_add_page, get_page, if_neg hc] at h
    cases h

theorem try_add_page_true {hb : Nat} {s s' : St}
    (h : try_add_page hb s = (true, s')) :
    s.top < FAKE_HEAP_SIZE ∧
    s' = ⟨s.top + PAGE_SIZE,
      dealloc (MetaData.new_blank (hb + s.top) PAGE_SIZE) s.free⟩ := by
  by_cases hc : FAKE_HEAP_SIZE ≤ s.top
  · simp only [try_add_page, get_page, if_pos hc] at h
    cases h
  · simp only [try_add_page, get_page, if_neg hc] at h
    cases h
    exact ⟨by omega, rfl⟩

theorem inv_mk {hb t : Nat} {f allocd : List MetaData} :
    Inv hb ⟨t, f⟩ allocd ↔
      (f.Chain' gapped ∧
       (∀ m ∈ f, 0 < m.total_size) ∧
       (∀ m ∈ allocd, 0 < m.total_size) ∧
       (∀ a ∈ allocd, ∀ x ∈ f, Disj a x) ∧
       allocd.Pairwise Disj ∧
       (∀ m ∈ f, hb ≤ m.base ∧ m.endAddr ≤ hb + t) ∧
       (∀ m ∈ allocd, hb ≤ m.base ∧ m.endAddr ≤ hb + t)) :=
  Iff.rfl

theorem inv_top_mono {hb t t' : Nat} {free allocd : List MetaData}
    (hinv : Inv hb ⟨t, free⟩ allocd) (h : t ≤ t') :
    Inv hb ⟨t', free⟩ allocd := by
  rw [inv_mk] at hinv ⊢
  obtain ⟨hchain, hposf, hposa, hfa, haa, harf, hara⟩ := hinv
  refine ⟨hchain, hposf, hposa, hfa, haa, ?_, ?_⟩
  · intro m hm
    have := harf m hm
    exact ⟨this.1, by omega⟩
  · intro m hm
    have := hara m hm
    exact ⟨this.1, by omega⟩

/-- Feeding an extent through the deallocate path preserves the whole
invariant, provided the extent is non-empty, range-disjoint from every free
extent and every handed-out block, and inside the arena. -/
theorem dealloc_inv {hb top : Nat} {free allocd : List MetaData} {n : MetaData}
    (hinv : Inv hb ⟨top, free⟩ allocd)
    (hnpos : 0 < n.total_size)
    (hdisjn : ∀ x ∈ free, Disj n x)
    (hdisja : ∀ a ∈ allocd, Disj a n)
    (harn : hb ≤ n.base ∧ n.endAddr ≤ hb + top) :
    Inv hb ⟨top, dealloc n free⟩ allocd := by
  obtain ⟨hchain, hposf, hposa, hfa, haa, harf, hara⟩ := hinv
  obtain ⟨hc', hp', hcov'⟩ := dealloc_props hchain hposf hnpos hdisjn
  refine ⟨hc', hp', hposa, ?_, haa, ?_, hara⟩
  · intro a ha f hf
    have hpa : 0 < a.total_size := hposa a ha
    have hpf : 0 < f.total_size := hp' f hf
    refine disj_of_no_common hpa hpf ?_
    intro k hkf hka
    rcases hcov' f hf k hkf with hkn | ⟨x, hx, hkx⟩
    · exact disj_not_both (hdisja a ha) hka hkn
    · exact disj_not_both (hfa a ha x hx) hka hkx
  · intro m hm
    have hpm : 0 < m.total_size := hp' m hm
    constructor
    · rcases hcov' m hm m.base (inExt_base hpm) with hkn | ⟨x, hx, hkx⟩
      · simp only [inExt] at hkn
        omega
      · have := (harf x hx).1
        simp only [inExt] at hkx
        omega
    · rcases hcov' m hm (m.endAddr - 1) (inExt_top hpm) with hkn | ⟨x, hx, hkx⟩
      · simp only [inExt] at hkn
        simp only [MetaData.endAddr] at hpm hkn harn ⊢
        omega
      · have := (harf x hx).2
        simp only [inExt] at hkx
        simp only [MetaData.endAddr] at hpm hkx this ⊢
        omega

theorem try_add_page_inv {hb : Nat} {s s' : St} {allocd : List MetaData}
    {b : Bool} (hinv : Inv hb s allocd) (h : try_add_page hb s = (b, s')) :
    Inv hb s' allocd := by
  cases b with
  | false =>
    obtain ⟨rfl, _⟩ := try_add_page_false h
    exact hinv
  | true =>
    obtain ⟨htop, rfl⟩ := try_add_page_true h
    obtain ⟨hnb, hnt, _⟩ := new_blank_page (hb + s.top)
    have hinv' : Inv hb ⟨s.top + PAGE_SIZE, s.free⟩ allocd := by
      refine inv_top_mono (t := s.top) ?_ (by omega)
      obtain ⟨h1, h2, h3, h4, h5, h6, h7⟩ := hinv
      exact ⟨h1, h2, h3, h4, h5, h6, h7⟩
    refine dealloc_inv hinv' ?_ ?_ ?_ ?_
    · rw [hnt]
      simp [PAGE_SIZE]
    · intro x hx
      right
      rw [hnb]
      exact (hinv.2.2.2.2.2.1 x hx).2
    · intro a ha
      left
      rw [hnb]
      exact (hinv.2.2.2.2.2.2 a ha).2
    · constructor
      · rw [hnb]
        omega
      · simp only [MetaData.endAddr, hnb, hnt]
        omega

/-! ### The allocate step preserves the invariant -/

theorem inExt_sub {a b : MetaData} {k : Nat} (hb : b.base ≤ a.base)
    (he : a.endAddr ≤ b.endAddr) (h : inExt a k) : inExt b k := by
  simp only [inExt] at h ⊢
  omega

theorem split_step_inv {hb top : Nat} {pre post allocd : List MetaData}
    {E head : MetaData} {rem : Option MetaData} {lay : LayoutM}
    (hinv : Inv hb ⟨top, pre ++ E :: post⟩ allocd)
    (hsplit : node_split E lay = some (head, rem))
    (hpow : IsPow2 lay.align) :
    Inv hb ⟨top, remFree pre post rem⟩ (head :: allocd) := by
  rw [inv_mk] at hinv
  obtain ⟨hchain, hposf, hposa, hfa, haa, harf, hara⟩ := hinv
  have hmemE : E ∈ pre ++ E :: post := by simp
  have hposE : 0 < E.total_size := hposf E hmemE
  obtain ⟨hpre, hpost, hchain'⟩ := chain_gap_middle hchain hposf
  obtain ⟨hhb, hha, hle1, hle2⟩ := node_split_head hsplit
  have hposH : 0 < head.total_size := by
    refine Nat.lt_of_lt_of_le ?_ hle2
    exact total_size_pos _ hpow.pos
  have hheadend : head.endAddr ≤ E.endAddr := by
    cases rem with
    | some r =>
      obtain ⟨hHeq, hrb, hpart, hrpos, hral⟩ := node_split_rem hsplit
      simp only [MetaData.endAddr, hhb]
      omega
    | none =>
      obtain ⟨hHt, _, _⟩ := node_split_fold hsplit
      simp only [MetaData.endAddr, hhb, hHt]
      omega
  have harE := harf E hmemE
  -- invariant of the intermediate state (extent removed, head handed out)
  have hmid : Inv hb ⟨top, pre ++ post⟩ (head :: allocd) := by
    rw [inv_mk]
    refine ⟨hchain', ?_, ?_, ?_, ?_, ?_, ?_⟩
    · intro m hm
      refine hposf m ?_
      rcases List.mem_append.mp hm with hm | hm
      · exact List.mem_append_left _ hm
      · exact List.mem_append_right _ (List.mem_cons_of_mem E hm)
    · intro m hm
      rcases List.mem_cons.mp hm with rfl | hm
      · exact hposH
      · exact hposa m hm
    · intro a ha f hf
      rcases List.mem_cons.mp ha with rfl | ha
      · rcases List.mem_append.mp hf with hf | hf
        · right
          have := hpre f hf
          simp only [MetaData.endAddr] at this ⊢
          rw [hhb]
          omega
        · left
          have := hpost f hf
          simp only [MetaData.endAddr] at this hheadend ⊢
          omega
      · refine hfa a ha f ?_
        rcases List.mem_append.mp hf with hf | hf
        · exact List.mem_append_left _ hf
        · exact List.mem_append_right _ (List.mem_cons_of_mem E hf)
    · refine List.pairwise_cons.mpr ⟨?_, haa⟩
      intro a ha
      refine disj_symm (disj_of_no_common (hposa a ha) hposH ?_)
      intro k hkH hka
      have hkE : inExt E k := inExt_sub (by omega) hheadend hkH
      exact disj_not_both (hfa a ha E hmemE) hka hkE
    · intro m hm
      refine harf m ?_
      rcases List.mem_append.mp hm with hm | hm
      · exact List.mem_append_left _ hm
      · exact List.mem_append_right _ (List.mem_cons_of_mem E hm)
    · intro m hm
      rcases List.mem_cons.mp hm with rfl | hm
      · constructor
        · rw [hhb]
          exact harE.1
        · omega
      · exact hara m hm
  cases rem with
  | none => exact hmid
  | some r =>
    obtain ⟨hHeq, hrb, hpart, hrpos, hral⟩ := node_split_rem hsplit
    have hns : (0:Nat) < NODE_SIZE := by decide
    have hrpos' : 0 < r.total_size := by omega
    have hEnd : head.endAddr = r.base := by
      simp only [MetaData.endAddr, hhb]
      omega
    have hrend : r.endAddr = E.endAddr := by
      simp only [MetaData.endAddr, hrb]
      omega
    refine dealloc_inv hmid hrpos' ?_ ?_ ?_
    · intro x hx
      rcases List.mem_append.mp hx with hx | hx
      · refine Or.inr ?_
        have h1 := hpre x hx
        omega
      · refine Or.inl ?_
        have h1 := hpost x hx
        omega
    · intro a ha
      rcases List.mem_cons.mp ha with rfl | ha
      · exact Or.inl (by omega)
      · refine disj_of_no_common (hposa a ha) hrpos' ?_
        intro k hkr hka
        have hkE : inExt E k := by
          refine inExt_sub ?_ (by omega) hkr
          omega
        exact disj_not_both (hfa a ha E hmemE) hka hkE
    · exact ⟨by omega, by omega⟩

/-! ### The allocate procedure -/

theorem allocFuel_addr {hb : Nat} {lay : LayoutM} :
    ∀ (fuel : Nat) {s s' : St} {p : Nat} {H : MetaData},
      allocFuel hb lay fuel s = some (some (p, H), s') →
      p = H.data_location ∧ H.layout.align = lay.align := by
  intro fuel
  induction fuel with
  | zero => intro s s' p H h; cases h
  | succ fuel ih =>
    intro s s' p H h
    simp only [allocFuel] at h
    cases hstep : (if s.free.isEmpty then try_add_page hb s else (true, s)) with
    | mk grown s1 =>
      rw [hstep] at h
      cases grown with
      | false =>
        simp only [if_false, Bool.false_eq_true] at h
        cases h
      | true =>
        simp only [if_true] at h
        cases hfc : findCompat lay s1.free with
        | some v =>
          obtain ⟨pre, E, post⟩ := v
          simp only [hfc] at h
          cases hsp : node_split E lay with
          | none => simp only [hsp] at h; cases h
          | some w =>
            obtain ⟨head, rem⟩ := w
            simp only [hsp] at h
            simp only [Option.some.injEq, Prod.mk.injEq] at h
            obtain ⟨⟨hp, hH⟩, _⟩ := h
            obtain ⟨_, hal, _, _⟩ := node_split_head hsp
            subst hH
            exact ⟨hp.symm, hal⟩
        | none =>
          simp only [hfc] at h
          cases htap : try_add_page hb s1 with
          | mk b2 s2 =>
            simp only [htap] at h
            cases b2 with
            | false => cases h
            | true => exact ih h

theorem allocFuel_spec {hb : Nat} {lay : LayoutM} :
    ∀ (fuel : Nat) {s s' : St} {allocd : List MetaData}
      {res : Option (Nat × MetaData)},
      Inv hb s allocd →
      allocFuel hb lay fuel s = some (res, s') →
      (res = none → Inv hb s' allocd) ∧
      (∀ p H, res = some (p, H) →
        ∃ s0 pre E post rem,
          Inv hb s0 allocd ∧ s0.top = s'.top ∧ s.top ≤ s0.top ∧
          s0.free = pre ++ E :: post ∧
          (∀ x ∈ pre, x.check_compatible lay = false) ∧
          E.check_compatible lay = true ∧
          node_split E lay = some (H, rem) ∧
          p = H.data_location ∧
          s'.free = remFree pre post rem) := by
  intro fuel
  induction fuel with
  | zero => intro s s' allocd res hinv h; cases h
  | succ fuel ih =>
    intro s s' allocd res hinv h
    simp only [allocFuel] at h
    cases hstep : (if s.free.isEmpty then try_add_page hb s else (true, s)) with
    | mk grown s1 =>
      rw [hstep] at h
      have hinv1 : Inv hb s1 allocd := by
        by_cases hemp : s.free.isEmpty
        · rw [if_pos hemp] at hstep
          exact try_add_page_inv hinv hstep
        · rw [if_neg hemp] at hstep
          cases hstep
          exact hinv
      have htople : s.top ≤ s1.top := by
        by_cases hemp : s.free.isEmpty
        · rw [if_pos hemp] at hstep
          cases hb2 : grown with
          | false =>
            rw [hb2] at hstep
            obtain ⟨rfl, _⟩ := try_add_page_false hstep
            exact Nat.le_refl _
          | true =>
            rw [hb2] at hstep
            obtain ⟨_, rfl⟩ := try_add_page_true hstep
            simp only
            omega
        · rw [if_neg hemp] at hstep
          cases hstep
          exact Nat.le_refl _
      cases grown with
      | false =>
        simp only [if_false, Bool.false_eq_true] at h
        cases h
        exact ⟨fun _ => hinv1, fun p H hPH => by cases hPH⟩
      | true =>
        simp only [if_true] at h
        cases hfc : findCompat lay s1.free with
        | some v =>
          obtain ⟨pre, E, post⟩ := v
          simp only [hfc] at h
          cases hsp : node_split E lay with
          | none => simp only [hsp] at h; cases h
          | some w =>
            obtain ⟨head, rem⟩ := w
            simp only [hsp] at h
            simp only [Option.some.injEq, Prod.mk.injEq] at h
            obtain ⟨hres, hs'⟩ := h
            obtain ⟨hfree1, hprec, hEc⟩ := findCompat_some hfc
            constructor
            · intro hnone
              rw [hnone] at hres
              cases hres.symm
            · intro p H hPH
              rw [hPH] at hres
              simp only [Option.some.injEq, Prod.mk.injEq] at hres
              obtain ⟨hp, hH⟩ := hres
              subst hH hp hs'
              refine ⟨s1, pre, E, post, rem, hinv1, rfl, htople, hfree1, hprec, hEc,
                hsp, rfl, ?_⟩
              cases rem <;> rfl
        | none =>
          simp only [hfc] at h
          cases htap : try_add_page hb s1 with
          | mk b2 s2 =>
            simp only [htap] at h
            cases b2 with
            | false =>
              cases h
              obtain ⟨rfl, _⟩ := try_add_page_false htap
              exact ⟨fun _ => hinv1, fun p H hPH => by cases hPH⟩
            | true =>
              have hinv2 : Inv hb s2 allocd := try_add_page_inv hinv1 htap
              obtain ⟨_, rfl⟩ := try_add_page_true htap
              obtain ⟨ih1, ih2⟩ := ih hinv2 h
              refine ⟨ih1, ?_⟩
              intro p H hPH
              obtain ⟨s0, pre, E, post, rem, h1, h2, h3, rest⟩ := ih2 p H hPH
              exact ⟨s0, pre, E, post, rem, h1, h2, by simp only at h3; omega, rest⟩

/-! ### Every reachable state satisfies the invariant -/

theorem reach_inv {hb : Nat} : ∀ {s : St} {allocd : List MetaData},
    Reach hb s allocd → Inv hb s allocd := by
  intro s allocd h
  induction h with
  | init =>
    exact ⟨List.chain'_nil, by simp, by simp, by simp, List.Pairwise.nil,
      by simp, by simp⟩
  | @alloc_ok s allocd lay p H s' _ hpow halloc ih =>
    obtain ⟨_, hsome⟩ := allocFuel_spec (PAGE_COUNT + 1) ih halloc
    obtain ⟨s0, pre, E, post, rem, hinv0, htop0, _, hfree0, _, _, hsp, _, hfree'⟩ :=
      hsome p H rfl
    have hinv0' : Inv hb ⟨s0.top, pre ++ E :: post⟩ allocd := by
      rw [← hfree0]
      exact hinv0
    have hres := split_step_inv hinv0' hsp hpow
    obtain ⟨t', f'⟩ := s'
    simp only at htop0 hfree'
    rw [← htop0, hfree']
    exact hres
  | @alloc_fail s allocd lay s' _ hpow halloc ih =>
    obtain ⟨hnone, _⟩ := allocFuel_spec (PAGE_COUNT + 1) ih halloc
    exact hnone rfl
  | @dealloc_step s allocd H _ hmem ih =>
    obtain ⟨hchain, hposf, hposa, hfa, haa, harf, hara⟩ := ih
    have hposH : 0 < H.total_size := hposa H hmem
    have hinv' : Inv hb ⟨s.top, s.free⟩ (allocd.erase H) := by
      refine ⟨hchain, hposf, ?_, ?_, ?_, harf, ?_⟩
      · intro m hm
        exact hposa m (List.mem_of_mem_erase hm)
      · intro a ha f hf
        exact hfa a (List.mem_of_mem_erase ha) f hf
      · exact haa.sublist (List.erase_sublist _ _)
      · intro m hm
        exact hara m (List.mem_of_mem_erase hm)
    exact dealloc_inv hinv' hposH (hfa H hmem) (pairwise_disj_erase haa hmem hposH)
      (hara H hmem)

/-! ### Closed forms for the deallocate scan -/

theorem mergeAdj_eq_none {a b : MetaData} (h : a.base + a.total_size ≠ b.base) :
    mergeAdj a b = none := by
  unfold mergeAdj
  rw [if_neg h]

theorem mergeAdj_eq_some {a b : MetaData} (h : a.base + a.total_size = b.base) :
    mergeAdj a b =
      some ⟨a.base, ⟨a.layout.size + b.total_size, a.layout.align⟩⟩ := by
  unfold mergeAdj
  rw [if_pos h]

/-- Deallocate with no coalescing: the freed extent lands between `pre` and
`post` untouched. -/
theorem dealloc_no_merge (n : MetaData) (pre post : List MetaData)
    (hskip : ∀ x ∈ pre, ¬ n.base < x.base)
    (hlast : ∀ l ∈ pre.getLast?, l.endAddr ≠ n.base)
    (hpost : ∀ r ∈ post.head?, n.base < r.base ∧ n.endAddr ≠ r.base) :
    dealloc n (pre ++ post) = pre ++ n :: post := by
  rw [dealloc, deallocScan_skip_phase n pre none post hskip]
  simp only [leftList, List.nil_append]
  rcases hgl : pre.getLast? with - | l
  · have hpre : pre = [] := List.getLast?_eq_none_iff.mp hgl
    subst hpre
    simp only [List.dropLast_nil, List.nil_append]
    cases post with
    | nil => simp [deallocScan]
    | cons r rs =>
      obtain ⟨hlt, hne⟩ := hpost r rfl
      have hm : mergeAdj n r = none := by
        refine mergeAdj_eq_none ?_
        simpa only [MetaData.endAddr] using hne
      simp only [deallocScan, if_pos hlt, hm]
  · obtain ⟨ys, rfl⟩ := List.getLast?_eq_some_iff.mp hgl
    have hml : mergeAdj l n = none := by
      refine mergeAdj_eq_none ?_
      simpa only [MetaData.endAddr] using hlast l hgl
    rw [List.dropLast_concat]
    have hcore : deallocScan n (some l) post = l :: n :: post := by
      cases post with
      | nil => simp only [deallocScan, hml]
      | cons r rs =>
        obtain ⟨hlt, hne⟩ := hpost r rfl
        have hm : mergeAdj n r = none := by
          refine mergeAdj_eq_none ?_
          simpa only [MetaData.endAddr] using hne
        simp only [deallocScan, if_pos hlt, hm, hml]
    rw [hcore]
    simp

/-- Deallocate with exactly one coalescing step, with the right neighbour:
the freed extent absorbs the head of `post`. -/
theorem dealloc_merge_right (n r c : MetaData) (pre post : List MetaData)
    (hskip : ∀ x ∈ pre, ¬ n.base < x.base)
    (hlt : n.base < r.base)
    (hmr : mergeAdj n r = some c)
    (hlast : ∀ l ∈ pre.getLast?, l.endAddr ≠ c.base) :
    dealloc n (pre ++ r :: post) = pre ++ c :: post := by
  rw [dealloc, deallocScan_skip_phase n pre none (r :: post) hskip]
  simp only [leftList, List.nil_append]
  rcases hgl : pre.getLast? with - | l
  · have hpre : pre = [] := List.getLast?_eq_none_iff.mp hgl
    subst hpre
    simp only [List.dropLast_nil, List.nil_append]
    simp only [deallocScan, if_pos hlt, hmr]
  · obtain ⟨ys, rfl⟩ := List.getLast?_eq_some_iff.mp hgl
    have hml : mergeAdj l c = none := by
      refine mergeAdj_eq_none ?_
      simpa only [MetaData.endAddr] using hlast l hgl
    rw [List.dropLast_concat]
    have hcore : deallocScan n (some l) (r :: post) = l :: c :: post := by
      simp only [deallocScan, if_pos hlt, hmr, hml]
    rw [hcore]
    simp

/-- `node_split` only examines the extent's base address and total size. -/
theorem node_split_congr {m m' : MetaData} {lay : LayoutM}
    (hbase : m.base = m'.base) (htot : m.total_size = m'.total_size) :
    node_split m lay = node_split m' lay := by
  simp only [node_split, hbase, htot]

theorem findCompat_eq_none {lay : LayoutM} :
    ∀ {l : List MetaData}, (∀ x ∈ l, x.check_compatible lay = false) →
      findCompat lay l = none := by
  intro l
  induction l with
  | nil => intro _; rfl
  | cons x xs ih =>
    intro hall
    have hx : x.check_compatible lay = false := hall x (by simp)
    simp only [findCompat, hx, Bool.false_eq_true, if_false]
    rw [ih (fun z hz => hall z (by simp [hz]))]

theorem nextMul_add_mul (k n a : Nat) (ha : 0 < a) :
    nextMul (a * k + n) a = a * k + nextMul n a := by
  unfold nextMul
  have h1 : a * k + n + a - 1 = a * k + (n + a - 1) := by omega
  rw [h1, Nat.mul_add_div ha, Nat.add_mul, Nat.mul_comm k a]

theorem alignOffset_eq_zero {p a : Nat} (h : p % a = 0) :
    alignOffset p a = 0 := by
  unfold alignOffset
  rw [h, Nat.sub_zero, Nat.mod_self]

/-! ### Claim theorems: the block-descriptor arithmetic -/

/-- C1: whenever `alloc` returns an address, that address is a multiple of
the requested alignment — for any state, whatever the provenance of the
block (fresh page, reused extent of another alignment class, or split
remainder). -/
theorem c1_alloc_aligned {hb : Nat} {lay : LayoutM} {s s' : St} {p : Nat}
    {H : MetaData} (hsz : 0 < lay.size) (hpow : IsPow2 lay.align)
    (h : alloc hb lay s = some (some (p, H), s')) :
    p % lay.align = 0 := by
  obtain ⟨hp, hal⟩ := allocFuel_addr (PAGE_COUNT + 1) h
  rw [hp, ← hal]
  exact data_location_mod H (by rw [hal]; exact hpow)

/-- C2 counterexample: at the unaligned base address 8 with requested
alignment 64, the payload address computed by the descriptor arithmetic is
128, not `(8 + NODE_SIZE).next_multiple_of(64) = 64` as the claim's formula
would have it. -/
theorem c2_counterexample :
    (MetaData.mk 8 ⟨1, 64⟩).data_location ≠ nextMul (8 + NODE_SIZE) 64 := by
  decide

/-- C2 (amended): the payload start is `base` rounded up to
`max(align, NODE_ALIGN)` plus `NODE_SIZE` rounded up to `align`;
`extra_size` is the distance from `base` to the payload start and
`total_size = extra_size + size`.  The claim's simpler formula
`roundUp(base + NODE_SIZE, align)` is recovered exactly when `base` is
already aligned to `max(align, NODE_ALIGN)`. -/
theorem c2_payload_formula (m : MetaData) (hpow : IsPow2 m.layout.align) :
    m.data_location =
      (m.base + alignOffset m.base (max m.layout.align NODE_ALIGN)) +
        nextMul NODE_SIZE m.layout.align ∧
    m.extra_size = m.data_location - m.base ∧
    m.total_size = m.extra_size + m.layout.size ∧
    (m.base % max m.layout.align NODE_ALIGN = 0 →
      m.data_location = nextMul (m.base + NODE_SIZE) m.layout.align) := by
  refine ⟨?_, ?_, ?_, ?_⟩
  · simp only [MetaData.data_location, MetaData.extra_size]
    omega
  · simp only [MetaData.data_location]
    omega
  · simp only [MetaData.total_size]
    omega
  · intro hmod
    have haO : alignOffset m.base (max m.layout.align NODE_ALIGN) = 0 :=
      alignOffset_eq_zero hmod
    have hdvdM : m.layout.align ∣ max m.layout.align NODE_ALIGN := by
      rcases le_or_lt m.layout.align NODE_ALIGN with h8 | h8
      · rw [Nat.max_eq_right h8]
        simpa only [NODE_ALIGN] using hpow.dvd_eight (by simpa only [NODE_ALIGN] using h8)
      · rw [Nat.max_eq_left (by omega)]
    have hdvd : m.layout.align ∣ m.base :=
      hdvdM.trans (Nat.dvd_of_mod_eq_zero hmod)
    obtain ⟨k, hk⟩ := hdvd
    rw [MetaData.data_location, MetaData.extra_size, haO, hk,
      nextMul_add_mul k NODE_SIZE m.layout.align hpow.pos]
    omega

/-- C3: `node_split` produces a remainder exactly when the leftover byte
count exceeds the bookkeeping floor at the remainder's address (the blank
metadata offset there plus `NODE_SIZE`); a remainder starts at
`head.base + head.total_size` and partitions the original extent exactly;
otherwise the leftover is folded into the head, which then covers the whole
original extent. -/
theorem c3_node_split {m : MetaData} {lay : LayoutM} {h : MetaData}
    {r : Option MetaData} (hs : node_split m lay = some (h, r)) :
    (r.isSome = true ↔
      MetaData.default_meta_offset (m.base + (MetaData.mk m.base lay).total_size) +
        NODE_SIZE < m.total_size - (MetaData.mk m.base lay).total_size) ∧
    (∀ rm, r = some rm →
      h = MetaData.mk m.base lay ∧ rm.base = h.base + h.total_size ∧
      h.total_size + rm.total_size = m.total_size) ∧
    (r = none → h.total_size = m.total_size ∧ h.base = m.base ∧
      h.layout.align = lay.align ∧ lay.size ≤ h.layout.size) := by
  refine ⟨?_, ?_, ?_⟩
  · have hs' := hs
    simp only [node_split] at hs'
    split at hs'
    case isTrue hle =>
      split at hs'
      case isTrue hreq =>
        cases hs'
        simpa using hreq
      case isFalse hreq =>
        cases hs'
        simpa using hreq
    case isFalse => cases hs'
  · intro rm hrm
    rw [hrm] at hs
    obtain ⟨h1, h2, h3, _, _⟩ := node_split_rem hs
    refine ⟨h1, ?_, h3⟩
    rw [h2, h1]
  · intro hnone
    rw [hnone] at hs
    obtain ⟨h1, h2, h3, h4, _⟩ := node_split_fold hs
    exact ⟨h1, h2, h3, h4⟩

/-- C7 counterexample: a 16-byte-aligned extent at base 16 holding an
8-byte payload (total footprint 56 bytes) is declared compatible with a
request for 12 bytes at alignment 16 by the source's `check_compatible`,
although recomputing the overhead at the joint alignment (48 bytes) leaves
only 8 usable bytes — the spec's definition rejects the request. -/
theorem c7_counterexample :
    MetaData.check_compatible ⟨16, ⟨8, 16⟩⟩ ⟨12, 16⟩ = true ∧
    specCheckCompatible ⟨16, ⟨8, 16⟩⟩ ⟨12, 16⟩ = false := by
  constructor
  · decide
  · decide

/-- C7 (amended): the branch of `check_compatible` for requests of strictly
greater alignment agrees with the spec's joint-alignment definition; the
other branch compares the request against `usable_size`, which agrees with
the joint-alignment definition exactly when the extent's own alignment is
at most `NODE_ALIGN`. -/
theorem c7_check_compatible (m : MetaData) (lay : LayoutM)
    (hpm : IsPow2 m.layout.align) (hpl : IsPow2 lay.align) :
    (m.layout.align < lay.align →
      m.check_compatible lay = specCheckCompatible m lay) ∧
    (lay.align ≤ m.layout.align →
      m.check_compatible lay = decide (lay.size ≤ m.usable_size)) ∧
    (lay.align ≤ m.layout.align → m.layout.align ≤ NODE_ALIGN →
      m.check_compatible lay = specCheckCompatible m lay) := by
  refine ⟨?_, ?_, ?_⟩
  · intro hlt
    have hmax : max m.layout.align lay.align = lay.align := Nat.max_eq_right (by omega)
    have hov : (MetaData.mk m.base ⟨lay.size, max m.layout.align lay.align⟩).extra_size
        = (MetaData.mk m.base lay).extra_size := by
      rw [hmax]
    simp only [MetaData.check_compatible, specCheckCompatible, if_pos hlt, hov]
    by_cases hle : (MetaData.mk m.base lay).extra_size ≤ m.total_size
    · rw [if_pos hle]
      have : (lay.size ≤ m.total_size - (MetaData.mk m.base lay).extra_size) ↔
          ((MetaData.mk m.base lay).extra_size + lay.size ≤ m.total_size) := by
        omega
      exact decide_eq_decide.mpr this
    · rw [if_neg hle]
      have : ¬ ((MetaData.mk m.base lay).extra_size + lay.size ≤ m.total_size) := by
        omega
      rw [decide_eq_false this]
  · intro hle
    simp only [MetaData.check_compatible, if_neg (not_lt.mpr hle)]
  · intro hle h8
    have hpl8 : lay.align ≤ NODE_ALIGN := by omega
    have hmax : max m.layout.align lay.align = m.layout.align := Nat.max_eq_left hle
    have hovr : (MetaData.mk m.base ⟨lay.size, max m.layout.align lay.align⟩).extra_size
        = NODE_SIZE + alignOffset m.base NODE_ALIGN := by
      rw [hmax]
      exact extra_size_le8 (MetaData.mk m.base ⟨lay.size, m.layout.align⟩) hpm h8
    have hextra : m.extra_size = NODE_SIZE + alignOffset m.base NODE_ALIGN :=
      extra_size_le8 m hpm h8
    have husable : m.usable_size = m.layout.size := by
      simp only [MetaData.usable_size, MetaData.meta_location,
        MetaData.data_location, default_meta_offset_eq, hextra]
      omega
    simp only [MetaData.check_compatible, specCheckCompatible,
      if_neg (not_lt.mpr hle), hovr, husable]
    have htot : m.total_size = m.layout.size + m.extra_size := rfl
    refine decide_eq_decide.mpr ?_
    rw [htot, hextra]
    omega

/-! ### Claim theorems: free-list invariants and exhaustion -/

/-- C4: in every reachable allocator state — in particular after every
completed deallocate — no two members of the free list are
address-adjacent, in either direction. -/
theorem c4_no_adjacent {hb : Nat} {s : St} {allocd : List MetaData}
    (h : Reach hb s allocd) :
    s.free.Pairwise (fun a b => a.endAddr ≠ b.base ∧ b.endAddr ≠ a.base) := by
  obtain ⟨hchain, hposf, _⟩ := reach_inv h
  refine List.pairwise_iff_forall_sublist.mpr ?_
  intro a b hsub
  have hga : gapped a b := List.pairwise_iff_forall_sublist.mp
    (chain_gap_pairwise hchain hposf) hsub
  have hpa : 0 < a.total_size := hposf a (hsub.subset (by simp))
  have hpb : 0 < b.total_size := hposf b (hsub.subset (by simp))
  simp only [gapped, MetaData.endAddr] at hga ⊢
  omega

/-- C5: in every reachable allocator state the free list is sorted in
strictly increasing base-address order, and this is preserved by every
allocate and deallocate step (being a property of all reachable states). -/
theorem c5_sorted {hb : Nat} {s : St} {allocd : List MetaData}
    (h : Reach hb s allocd) :
    s.free.Pairwise (fun a b => a.base < b.base) := by
  obtain ⟨hchain, hposf, _⟩ := reach_inv h
  refine (chain_gap_pairwise hchain hposf).imp ?_
  intro a b hg
  simp only [gapped, MetaData.endAddr] at hg
  omega

/-- C6: once the backing store is exhausted (`current_top` has reached the
fixed capacity, so `get_page` returns null), an `alloc` that no existing
free extent can satisfy returns the null pointer, leaving the state
unchanged — the failed grow is terminal, with no retry. -/
theorem c6_exhaustion (hb : Nat) (lay : LayoutM) (s : St)
    (hex : FAKE_HEAP_SIZE ≤ s.top)
    (hnc : ∀ m ∈ s.free, m.check_compatible lay = false) :
    alloc hb lay s = some (none, s) := by
  have htap : try_add_page hb s = (false, s) := by
    simp only [try_add_page, get_page, if_pos hex]
  have hfc : findCompat lay s.free = none := findCompat_eq_none hnc
  show allocFuel hb lay (PAGE_COUNT + 1) s = some (none, s)
  by_cases hemp : s.free.isEmpty
  · simp only [allocFuel, if_pos hemp, htap]
    simp
  · simp only [allocFuel, if_neg hemp, hfc, htap]
    simp

/-- C8: from any reachable state, if an `alloc` for layout `lay` succeeds
returning address `p` with block descriptor `H`, then deallocating that
block and allocating `lay` again succeeds with no extra page pulled from
the backing store — indeed it returns the same address `p` and restores the
allocator to exactly the state after the first call. -/
theorem c8_roundtrip {hb : Nat} {lay : LayoutM} {s s1 : St}
    {allocd : List MetaData} {p : Nat} {H : MetaData}
    (hreach : Reach hb s allocd) (hpow : IsPow2 lay.align)
    (h1 : alloc hb lay s = some (some (p, H), s1)) :
    alloc hb lay ⟨s1.top, dealloc H s1.free⟩ = some (some (p, H), s1) := by
  have hinv := reach_inv hreach
  obtain ⟨_, hsome⟩ := allocFuel_spec (PAGE_COUNT + 1) hinv h1
  obtain ⟨s0, pre, E, post, rem, hinv0, htop0, _, hfree0, hprec, hEc, hsp, hp, hfree1⟩ :=
    hsome p H rfl
  have hinv0' : Inv hb ⟨s0.top, pre ++ E :: post⟩ allocd := by
    rw [← hfree0]
    exact hinv0
  rw [inv_mk] at hinv0'
  obtain ⟨hchain, hposf, _, _, _, _, _⟩ := hinv0'
  have hmemE : E ∈ pre ++ E :: post := by simp
  have hposE : 0 < E.total_size := hposf E hmemE
  obtain ⟨hpreE, hpostE, hchain2⟩ := chain_gap_middle hchain hposf
  obtain ⟨hhb, hal, hle1, hle2⟩ := node_split_head hsp
  have hposmk : 0 < (MetaData.mk E.base lay).total_size := total_size_pos _ hpow.pos
  have hposH : 0 < H.total_size := by omega
  have hEend : E.endAddr = E.base + E.total_size := rfl
  have hskipH : ∀ x ∈ pre, ¬ H.base < x.base := by
    intro x hx
    have hg := hpreE x hx
    have hxe : x.endAddr = x.base + x.total_size := rfl
    rw [hhb]
    omega
  -- shared tail: the second allocate over the restored coalesced extent
  have htail : ∀ E2 : MetaData, dealloc H s1.free = pre ++ E2 :: post →
      E2.base = E.base → E2.total_size = E.total_size →
      E2.layout.align = lay.align → lay.size ≤ E2.layout.size →
      allocFuel hb lay (PAGE_COUNT + 1) ⟨s1.top, dealloc H s1.free⟩ =
        some (some (p, H), s1) := by
    intro E2 hfree2 hE2b hE2t hE2a hE2szge
    have hcompat : E2.check_compatible lay = true := by
      have hnlt : ¬ (E2.layout.align < lay.align) := by
        rw [hE2a]
        exact lt_irrefl _
      simp only [MetaData.check_compatible, if_neg hnlt]
      refine decide_eq_true ?_
      simp only [MetaData.usable_size]
      omega
    have hsplit2 : node_split E2 lay = some (H, rem) := by
      rw [node_split_congr hE2b hE2t]
      exact hsp
    have hfc2 : findCompat lay (pre ++ E2 :: post) = some (pre, E2, post) :=
      findCompat_eq pre E2 post hprec hcompat
    have hne : (pre ++ E2 :: post).isEmpty = false := by
      cases pre <;> rfl
    rw [hfree2]
    cases rem with
    | some r =>
      have hstate : (⟨s1.top, dealloc r (pre ++ post)⟩ : St) = s1 := by
        have hx : dealloc r (pre ++ post) = s1.free := hfree1.symm
        rw [hx]
      simp only [allocFuel, hne, Bool.false_eq_true, if_false, if_true, hfc2,
        hsplit2, hstate, hp]
    | none =>
      have hstate : (⟨s1.top, pre ++ post⟩ : St) = s1 := by
        have hx : pre ++ post = s1.free := hfree1.symm
        rw [hx]
      simp only [allocFuel, hne, Bool.false_eq_true, if_false, if_true, hfc2,
        hsplit2, hstate, hp]
  cases rem with
  | none =>
    obtain ⟨hHt, hHb2, hHa2, hszge, _⟩ := node_split_fold hsp
    have hfree1' : s1.free = pre ++ post := hfree1
    have hHend : H.endAddr = E.endAddr := by
      simp only [MetaData.endAddr, hhb, hHt]
    have hfree2 : dealloc H s1.free = pre ++ H :: post := by
      rw [hfree1']
      refine dealloc_no_merge H pre post hskipH ?_ ?_
      · intro l hl
        have hg := hpreE l (List.mem_of_getLast?_eq_some hl)
        rw [hhb]
        omega
      · intro r2 hr2
        have hg := hpostE r2 (List.mem_of_mem_head? hr2)
        constructor
        · rw [hhb]
          omega
        · rw [hHend]
          omega
    exact htail H hfree2 hhb hHt hal hszge
  | some r =>
    obtain ⟨hHeq, hrb, hpart, hrsz, hral⟩ := node_split_rem hsp
    have hnode40 : (0:Nat) < NODE_SIZE := by decide
    have hrpos : 0 < r.total_size := by omega
    have hEler : E.base ≤ r.base := by
      rw [hrb]
      omega
    have hrend : r.endAddr = E.endAddr := by
      simp only [MetaData.endAddr, hrb, hhb]
      omega
    have hfree1' : s1.free = pre ++ r :: post := by
      have hstep : dealloc r (pre ++ post) = pre ++ r :: post := by
        refine dealloc_no_merge r pre post ?_ ?_ ?_
        · intro x hx
          have hg := hpreE x hx
          have hxe : x.endAddr = x.base + x.total_size := rfl
          omega
        · intro l hl
          have hg := hpreE l (List.mem_of_getLast?_eq_some hl)
          omega
        · intro r2 hr2
          have hg := hpostE r2 (List.mem_of_mem_head? hr2)
          constructor
          · rw [hrb]
            omega
          · rw [hrend]
            omega
      rw [hfree1]
      exact hstep
    have hmr : mergeAdj H r =
        some ⟨H.base, ⟨H.layout.size + r.total_size, H.layout.align⟩⟩ := by
      refine mergeAdj_eq_some ?_
      rw [hrb, hhb]
    have hfree2 : dealloc H s1.free =
        pre ++ (⟨H.base, ⟨H.layout.size + r.total_size, H.layout.align⟩⟩ : MetaData) :: post := by
      rw [hfree1']
      refine dealloc_merge_right H r _ pre post hskipH ?_ hmr ?_
      · rw [hrb, hhb]
        omega
      · intro l hl
        have hg := hpreE l (List.mem_of_getLast?_eq_some hl)
        have : (⟨H.base, ⟨H.layout.size + r.total_size, H.layout.align⟩⟩ : MetaData).base
            = H.base := rfl
        rw [this, hhb]
        omega
    have hE2ext : (⟨H.base, ⟨H.layout.size + r.total_size, H.layout.align⟩⟩ : MetaData).total_size
        = (H.layout.size + r.total_size) + H.extra_size := rfl
    have hHtot : H.total_size = H.layout.size + H.extra_size := rfl
    refine htail _ hfree2 (by rw [show (⟨H.base, ⟨H.layout.size + r.total_size, H.layout.align⟩⟩ : MetaData).base = H.base from rfl, hhb]) ?_ ?_ ?_
    · rw [hE2ext]
      omega
    · rw [show (⟨H.base, ⟨H.layout.size + r.total_size, H.layout.align⟩⟩ : MetaData).layout.align = H.layout.align from rfl, hal]
    · have hHsz : H.layout.size = lay.size := by
        rw [hHeq]
      rw [show (⟨H.base, ⟨H.layout.size + r.total_size, H.layout.align⟩⟩ : MetaData).layout.size = H.layout.size + r.total_size from rfl, hHsz]
      omega

/-! ### Witnesses: the claim theorems applied at concrete inputs -/

/-- Witness for C1: a concrete allocate from the pristine state — the heap
grows one page, the blank page extent is split — returns address 4144, a
multiple of the requested alignment 16. -/
theorem c1_alloc_aligned_witness :
    0 < (LayoutM.mk 32 16).size ∧ IsPow2 (LayoutM.mk 32 16).align ∧
    alloc 4096 ⟨32, 16⟩ ⟨0, []⟩ =
      some (some (4144, ⟨4096, ⟨32, 16⟩⟩), ⟨4096, [⟨4176, ⟨3976, 8⟩⟩]⟩) ∧
    (4144 : Nat) % (LayoutM.mk 32 16).align = 0 := by
  have h1 : alloc 4096 (LayoutM.mk 32 16) ⟨0, []⟩ =
      some (some (4144, MetaData.mk 4096 ⟨32, 16⟩), ⟨4096, [⟨4176, ⟨3976, 8⟩⟩]⟩) := rfl
  exact ⟨by decide, ⟨4, rfl⟩, h1, c1_alloc_aligned (by decide) ⟨4, rfl⟩ h1⟩

/-- Witness for C2 (amended): at the unaligned base 8 with layout
(size 1, align 64) the payload location 128 is the aligned base 64 plus
`NODE_SIZE` rounded up to the alignment. -/
theorem c2_payload_formula_witness :
    IsPow2 (MetaData.mk 8 ⟨1, 64⟩).layout.align ∧
    (MetaData.mk 8 ⟨1, 64⟩).data_location =
      ((MetaData.mk 8 ⟨1, 64⟩).base +
        alignOffset (MetaData.mk 8 ⟨1, 64⟩).base
          (max (MetaData.mk 8 ⟨1, 64⟩).layout.align NODE_ALIGN)) +
        nextMul NODE_SIZE (MetaData.mk 8 ⟨1, 64⟩).layout.align :=
  ⟨⟨6, rfl⟩, (c2_payload_formula ⟨8, ⟨1, 64⟩⟩ ⟨6, rfl⟩).1⟩

/-- Witness for C3: splitting a 240-byte extent at base 0 for layout
(16, 8) produces the 56-byte head `⟨0, (16, 8)⟩` and a remainder at 56
holding the other 184 bytes, since the leftover 184 exceeds the
40-byte bookkeeping floor at address 56. -/
theorem c3_node_split_witness :
    node_split ⟨0, ⟨200, 8⟩⟩ ⟨16, 8⟩ =
      some (⟨0, ⟨16, 8⟩⟩, some ⟨56, ⟨144, 8⟩⟩) ∧
    ((some (MetaData.mk 56 ⟨144, 8⟩)).isSome = true ↔ (40 : Nat) < 184) ∧
    (∀ rm, some (MetaData.mk 56 ⟨144, 8⟩) = some rm →
      MetaData.mk 0 ⟨16, 8⟩ = MetaData.mk 0 ⟨16, 8⟩ ∧ rm.base = 56 ∧
      (56 : Nat) + rm.total_size = 240) ∧
    (some (MetaData.mk 56 ⟨144, 8⟩) = none →
      (56 : Nat) = 240 ∧ (0 : Nat) = 0 ∧ (8 : Nat) = 8 ∧ (16 : Nat) ≤ 16) := by
  have hs : node_split ⟨0, ⟨200, 8⟩⟩ ⟨16, 8⟩ =
      some (⟨0, ⟨16, 8⟩⟩, some ⟨56, ⟨144, 8⟩⟩) := rfl
  exact ⟨hs, c3_node_split hs⟩

/-- Witness for C4: the state reached by two allocates followed by a
deallocate of the first block has a two-extent free list with a strict gap
(4128 < 4256), hence no address-adjacent pair. -/
theorem c4_no_adjacent_witness :
    (St.mk 4096 (dealloc ⟨4096, ⟨32, 16⟩⟩ [⟨4256, ⟨3896, 8⟩⟩])).free.Pairwise
      (fun a b => a.endAddr ≠ b.base ∧ b.endAddr ≠ a.base) := by
  have h1 : alloc 4096 (LayoutM.mk 32 16) ⟨0, []⟩ =
      some (some (4144, MetaData.mk 4096 ⟨32, 16⟩), ⟨4096, [⟨4176, ⟨3976, 8⟩⟩]⟩) := rfl
  have h2 : alloc 4096 (LayoutM.mk 32 16) ⟨4096, [⟨4176, ⟨3976, 8⟩⟩]⟩ =
      some (some (4224, MetaData.mk 4176 ⟨32, 16⟩), ⟨4096, [⟨4256, ⟨3896, 8⟩⟩]⟩) := rfl
  have hmem : MetaData.mk 4096 ⟨32, 16⟩ ∈
      [MetaData.mk 4176 ⟨32, 16⟩, MetaData.mk 4096 ⟨32, 16⟩] := by decide
  have hr : Reach 4096 ⟨4096, dealloc ⟨4096, ⟨32, 16⟩⟩ [⟨4256, ⟨3896, 8⟩⟩]⟩
      ([MetaData.mk 4176 ⟨32, 16⟩, MetaData.mk 4096 ⟨32, 16⟩].erase ⟨4096, ⟨32, 16⟩⟩) :=
    Reach.dealloc_step
      (Reach.alloc_ok (Reach.alloc_ok Reach.init ⟨4, rfl⟩ h1) ⟨4, rfl⟩ h2) hmem
  exact c4_no_adjacent hr

/-- Witness for C5: the same two-allocates-one-deallocate state has its
two free extents in strictly increasing base order (4096 < 4256). -/
theorem c5_sorted_witness :
    (St.mk 4096 (dealloc ⟨4096, ⟨32, 16⟩⟩ [⟨4256, ⟨3896, 8⟩⟩])).free.Pairwise
      (fun a b => a.base < b.base) := by
  have h1 : alloc 4096 (LayoutM.mk 32 16) ⟨0, []⟩ =
      some (some (4144, MetaData.mk 4096 ⟨32, 16⟩), ⟨4096, [⟨4176, ⟨3976, 8⟩⟩]⟩) := rfl
  have h2 : alloc 4096 (LayoutM.mk 32 16) ⟨4096, [⟨4176, ⟨3976, 8⟩⟩]⟩ =
      some (some (4224, MetaData.mk 4176 ⟨32, 16⟩), ⟨4096, [⟨4256, ⟨3896, 8⟩⟩]⟩) := rfl
  have hmem : MetaData.mk 4096 ⟨32, 16⟩ ∈
      [MetaData.mk 4176 ⟨32, 16⟩, MetaData.mk 4096 ⟨32, 16⟩] := by decide
  have hr : Reach 4096 ⟨4096, dealloc ⟨4096, ⟨32, 16⟩⟩ [⟨4256, ⟨3896, 8⟩⟩]⟩
      ([MetaData.mk 4176 ⟨32, 16⟩, MetaData.mk 4096 ⟨32, 16⟩].erase ⟨4096, ⟨32, 16⟩⟩) :=
    Reach.dealloc_step
      (Reach.alloc_ok (Reach.alloc_ok Reach.init ⟨4, rfl⟩ h1) ⟨4, rfl⟩ h2) hmem
  exact c5_sorted hr

/-- Witness for C6: with the arena top already at `FAKE_HEAP_SIZE` and an
empty free list, an allocate for layout (8, 8) returns null and leaves the
state untouched. -/
theorem c6_exhaustion_witness :
    FAKE_HEAP_SIZE ≤ (St.mk FAKE_HEAP_SIZE []).top ∧
    (∀ m ∈ (St.mk FAKE_HEAP_SIZE []).free, m.check_compatible ⟨8, 8⟩ = false) ∧
    alloc 0 ⟨8, 8⟩ ⟨FAKE_HEAP_SIZE, []⟩ = some (none, ⟨FAKE_HEAP_SIZE, []⟩) :=
  ⟨le_refl _, by simp,
    c6_exhaustion 0 ⟨8, 8⟩ ⟨FAKE_HEAP_SIZE, []⟩ (le_refl _) (by simp)⟩

/-- Witness for C7 (amended): for an 8-aligned extent and an 8-aligned
request both branch characterisations hold, and the source agrees with the
spec definition (the extent alignment does not exceed `NODE_ALIGN`). -/
theorem c7_check_compatible_witness :
    IsPow2 (MetaData.mk 0 ⟨8, 8⟩).layout.align ∧
    IsPow2 (LayoutM.mk 8 8).align ∧
    (((MetaData.mk 0 ⟨8, 8⟩).layout.align < (LayoutM.mk 8 8).align →
      MetaData.check_compatible ⟨0, ⟨8, 8⟩⟩ ⟨8, 8⟩ =
        specCheckCompatible ⟨0, ⟨8, 8⟩⟩ ⟨8, 8⟩) ∧
    ((LayoutM.mk 8 8).align ≤ (MetaData.mk 0 ⟨8, 8⟩).layout.align →
      MetaData.check_compatible ⟨0, ⟨8, 8⟩⟩ ⟨8, 8⟩ =
        decide ((LayoutM.mk 8 8).size ≤ MetaData.usable_size ⟨0, ⟨8, 8⟩⟩)) ∧
    ((LayoutM.mk 8 8).align ≤ (MetaData.mk 0 ⟨8, 8⟩).layout.align →
      (MetaData.mk 0 ⟨8, 8⟩).layout.align ≤ NODE_ALIGN →
      MetaData.check_compatible ⟨0, ⟨8, 8⟩⟩ ⟨8, 8⟩ =
        specCheckCompatible ⟨0, ⟨8, 8⟩⟩ ⟨8, 8⟩)) :=
  ⟨⟨3, rfl⟩, ⟨3, rfl⟩, c7_check_compatible ⟨0, ⟨8, 8⟩⟩ ⟨8, 8⟩ ⟨3, rfl⟩ ⟨3, rfl⟩⟩

/-- Witness for C8: the C1 allocate, when its block is deallocated and the
same layout is allocated again, returns the same address 4144 and restores
exactly the post-first-allocate state. -/
theorem c8_roundtrip_witness :
    alloc 4096 ⟨32, 16⟩ ⟨0, []⟩ =
      some (some (4144, ⟨4096, ⟨32, 16⟩⟩), ⟨4096, [⟨4176, ⟨3976, 8⟩⟩]⟩) ∧
    alloc 4096 ⟨32, 16⟩ ⟨4096, dealloc ⟨4096, ⟨32, 16⟩⟩ [⟨4176, ⟨3976, 8⟩⟩]⟩ =
      some (some (4144, ⟨4096, ⟨32, 16⟩⟩), ⟨4096, [⟨4176, ⟨3976, 8⟩⟩]⟩) := by
  have h1 : alloc 4096 (LayoutM.mk 32 16) ⟨0, []⟩ =
      some (some (4144, MetaData.mk 4096 ⟨32, 16⟩), ⟨4096, [⟨4176, ⟨3976, 8⟩⟩]⟩) := rfl
  exact ⟨h1, c8_roundtrip Reach.init ⟨4, rfl⟩ h1⟩

end AllocTesting

namespace DequeList

/-! ### Claim theorems: the deque list -/

/-- C9: `insert_before` at a real cursor position does not splice. On the
one-element list `[1]` with the cursor on node 1, `insert_before 2` bumps
the length to 2 and writes node 2's `back` link to node 1, but leaves the
list front at node 1 with node 1's `front` and `back` both `None`: node 2
is unreachable by forward traversal from the front and the backward link
`2 -> 1` has no matching forward link, because the source never assigns
`node.front`, `cur.front` or `list.front` in the non-ghost branch. -/
theorem c9_insert_before_bug :
    c9state.current = some 1 ∧
    c9state.d.len = 2 ∧
    c9state.d.front = some 1 ∧
    (c9state.d.heap 1).front = none ∧
    (c9state.d.heap 1).back = none ∧
    (c9state.d.heap 2).back = some 1 :=
  ⟨rfl, rfl, rfl, rfl, rfl, rfl⟩

/-- C10: `pop_back` maps over `self.front` instead of `self.back`. On the
two-element list `[1, 2]` (node 2 pushed last, so node 2 is the back) it
returns the front node 1 rather than the back node 2, and — because the
front node's `front` link is `None` — clears both end pointers while
leaving `len = 1`, instead of unlinking node 2 and leaving `[1]`. -/
theorem c10_pop_back_bug :
    dequeAB.back = some 2 ∧
    (pop_back dequeAB).1 = some 1 ∧
    (pop_back dequeAB).2.front = none ∧
    (pop_back dequeAB).2.back = none ∧
    (pop_back dequeAB).2.len = 1 :=
  ⟨rfl, rfl, rfl, rfl, rfl⟩

end DequeList
